import Mathlib

/-!
Verification development for the document structure-inference and ranking
pipeline (`app/document_parser.py`, `app/main.py`).

Modelling conventions:
* Python strings are lists of characters (`Str := List Char`); Python string
  helpers (`strip`, `split`, `lower`, substring `in`, `count`) are embedded as
  executable functions over `Str`.
* PDF coordinates and font sizes are rationals (`ℚ`); the code only compares,
  adds, and scales them, so exact rational arithmetic mirrors it faithfully.
  Python boolean conditions over numbers are embedded as decidable `Prop`s.
* Python `sorted` / `list.sort` are stable sorts; they are embedded with
  `List.mergeSort`, whose stability is available as `List.sublist_mergeSort`.
* Page numbers are `ℕ` (the code uses 0-indexed non-negative page numbers);
  the `-1` sentinel pages of hierarchy anchors are embedded as `Int`.
-/

namespace DocPipe

/-- Python strings, modelled as lists of characters. -/
abbrev Str := List Char

/-- Python `abs` on rationals. -/
def pyAbs (q : ℚ) : ℚ := if q < 0 then -q else q

/-- Python `str.strip()`: drop whitespace from both ends. -/
def pyStrip (s : Str) : Str :=
  ((s.dropWhile Char.isWhitespace).reverse.dropWhile Char.isWhitespace).reverse

/-- Python `str.split()` (no argument): split on whitespace runs, dropping empties. -/
def pyWords (s : Str) : List Str :=
  (List.splitOnP Char.isWhitespace s).filter (fun w => !w.isEmpty)

/-- Python `str.lower()` (ASCII case folding, which covers the repo's inputs). -/
def pyLower (s : Str) : Str := s.map Char.toLower

/-- Characters matched by the regex class `[.!?]`. -/
def sentencePunct (c : Char) : Bool := c = '.' || c = '!' || c = '?'

/-- Embeds `re.search(r'[.!?]$', s.strip())` (document_parser.py:85):
true iff the stripped text ends with sentence punctuation. -/
def endsPunct (s : Str) : Bool :=
  match (pyStrip s).getLast? with
  | some c => sentencePunct c
  | none => false

/-- A text span as produced by `extract_text_with_metadata`
(document_parser.py:40-51).  The dict stores `bbox = (x0, y0, x1, y1)` and
separate `x0`,`y0`,`x1`,`y1` keys holding the same four values, so the bbox is
not duplicated here; `line_height` is `y1 - y0` at extraction time but is kept
as a field because the merger reads it from the dict. -/
structure Span where
  text : Str
  font_size : ℚ
  is_bold : Bool
  page : ℕ
  x0 : ℚ
  y0 : ℚ
  x1 : ℚ
  y1 : ℚ
  line_height : ℚ
  deriving DecidableEq

/-- A merged line as appended by `merge_heading_spans`
(document_parser.py:118-128).  The dict's `bbox` tuple and its `x0`..`y1` keys
hold the same four values `merged_bbox[0..3]`, kept once here. -/
structure Merged where
  text : Str
  font_size : ℚ
  is_bold : Bool
  page : ℕ
  x0 : ℚ
  y0 : ℚ
  x1 : ℚ
  y1 : ℚ
  deriving DecidableEq

/-- The running state of the inner merge loop of `merge_heading_spans`
(document_parser.py:71-77): `merged_text`, `merged_font_size`,
`merged_is_bold`, the four cells of `merged_bbox`, the `current` span, and
`initial_x0`. -/
structure MState where
  mtext : Str
  fs : ℚ
  bold : Bool
  mx0 : ℚ
  my0 : ℚ
  mx1 : ℚ
  my1 : ℚ
  cur : Span
  ix0 : ℚ
  deriving DecidableEq

/-- State at the start of an outer-loop iteration of `merge_heading_spans`
(document_parser.py:71-77). -/
def initState (s : Span) : MState :=
  ⟨s.text, s.font_size, s.is_bold, s.x0, s.y0, s.x1, s.y1, s, s.x0⟩

/-- The five merge criteria of `merge_heading_spans` (document_parser.py:88-108):
font-size match, vertical proximity, horizontal alignment, bold consistency,
and not a new-paragraph start. -/
def FiveCriteria (st : MState) (next : Span) : Prop :=
  (0 < next.y0 - st.cur.y1 ∧ next.y0 - st.cur.y1 < st.cur.line_height * (3/2)) ∧
  pyAbs (next.font_size - st.fs) < 1/2 ∧
  (pyAbs (next.x0 - st.ix0) < 15 ∨
    (st.ix0 < next.x0 ∧ next.x0 - st.ix0 < 50 ∧ st.bold = true)) ∧
  ((st.bold = true ∧ next.is_bold = true) ∨
    (st.bold = true ∧ pyAbs (next.font_size - st.fs) < 1/2 ∧
      (pyWords next.text).length < 25)) ∧
  ¬(30 < next.x0 - st.ix0 ∧ (pyWords next.text).length < 4)

instance (st : MState) (next : Span) : Decidable (FiveCriteria st next) := by
  unfold FiveCriteria
  infer_instance

/-- The next span is merged iff the running text does not already end in
sentence punctuation (document_parser.py:85-86) and all five criteria hold
(document_parser.py:108). -/
def ShouldMerge (st : MState) (next : Span) : Prop :=
  endsPunct st.mtext = false ∧ FiveCriteria st next

instance (st : MState) (next : Span) : Decidable (ShouldMerge st next) := by
  unfold ShouldMerge
  infer_instance

/-- The state update on a successful merge (document_parser.py:109-113):
append the text with a space, extend `merged_bbox[2]`/`[3]` by max, OR the
bold flags, and make the consumed span the new `current`. -/
def updState (st : MState) (next : Span) : MState :=
  { st with
    mtext := st.mtext ++ ' ' :: next.text
    mx1 := max st.mx1 next.x1
    my1 := max st.my1 next.y1
    bold := st.bold || next.is_bold
    cur := next }

/-- The merged line appended at the end of an outer iteration
(document_parser.py:118-128): text is stripped, font size is the first
span's, page is the last consumed (`current`) span's. -/
def mkMerged (st : MState) : Merged :=
  ⟨pyStrip st.mtext, st.fs, st.bold, st.cur.page, st.mx0, st.my0, st.mx1, st.my1⟩

/-- The combined loop of `merge_heading_spans` (document_parser.py:68-129):
either the next span is merged into the running state, or the running state is
emitted and a fresh state starts at the next span. -/
def mergeLoop (st : MState) : List Span → List Merged
  | [] => [mkMerged st]
  | next :: rs =>
    if ShouldMerge st next then mergeLoop (updState st next) rs
    else mkMerged st :: mergeLoop (initState next) rs

/-- Embeds `DocumentParser.merge_heading_spans` (document_parser.py:62-130). -/
def mergeHeadingSpans : List Span → List Merged
  | [] => []
  | s :: rest => mergeLoop (initState s) rest

/-- Instrumented variant of the merge loop that also records, for each emitted
merged line, the list of consumed constituent spans (accumulated in reverse). -/
def mergeLoopC (st : MState) (consumed : List Span) :
    List Span → List (Merged × List Span)
  | [] => [(mkMerged st, consumed.reverse)]
  | next :: rs =>
    if ShouldMerge st next then mergeLoopC (updState st next) (next :: consumed) rs
    else (mkMerged st, consumed.reverse) :: mergeLoopC (initState next) [next] rs

/-- Instrumented `merge_heading_spans`, pairing each merged line with its
constituent spans. -/
def mergeHeadingSpansC : List Span → List (Merged × List Span)
  | [] => []
  | s :: rest => mergeLoopC (initState s) [s] rest

theorem mergeLoopC_fst (st : MState) (cons : List Span) (rest : List Span) :
    (mergeLoopC st cons rest).map Prod.fst = mergeLoop st rest := by
  induction rest generalizing st cons with
  | nil => simp [mergeLoopC, mergeLoop]
  | cons next rs ih =>
    simp only [mergeLoopC, mergeLoop]
    split <;> simp [ih]

theorem mergeLoopC_snd (st : MState) (cons : List Span) (rest : List Span) :
    ((mergeLoopC st cons rest).map Prod.snd).flatten = cons.reverse ++ rest := by
  induction rest generalizing st cons with
  | nil => simp [mergeLoopC]
  | cons next rs ih =>
    simp only [mergeLoopC]
    split
    · rw [ih]
      simp
    · simp only [List.map_cons, List.flatten_cons, ih]
      simp

/-- C10: the span merger partitions its input — every input span is consumed
by exactly one merged line, in order, so concatenating the constituent spans
of the instrumented merger's output lines reconstructs the input, while the
merged-line projection is exactly `merge_heading_spans`. -/
theorem merger_partitions_input (p : List Span) :
    (mergeHeadingSpansC p).map Prod.fst = mergeHeadingSpans p ∧
    ((mergeHeadingSpansC p).map Prod.snd).flatten = p := by
  cases p with
  | nil => simp [mergeHeadingSpansC, mergeHeadingSpans]
  | cons s rest =>
    refine ⟨?_, ?_⟩
    · simpa [mergeHeadingSpansC, mergeHeadingSpans] using mergeLoopC_fst (initState s) [s] rest
    · simpa [mergeHeadingSpansC] using mergeLoopC_snd (initState s) [s] rest

/-- Joining a list of strings with single spaces, as built up by
`merged_text += " " + next_span["text"]` (document_parser.py:72,109). -/
def joinSpace : List Str → Str
  | [] => []
  | [x] => x
  | x :: y :: rest => x ++ ' ' :: joinSpace (y :: rest)

theorem joinSpace_append_single (l : List Str) (y : Str) (h : l ≠ []) :
    joinSpace (l ++ [y]) = joinSpace l ++ ' ' :: y := by
  induction l with
  | nil => simp at h
  | cons a as ih =>
    cases as with
    | nil => simp [joinSpace]
    | cons b bs =>
      have hstep : joinSpace ((a :: b :: bs) ++ [y]) = a ++ ' ' :: joinSpace ((b :: bs) ++ [y]) := rfl
      rw [hstep, ih (by simp), joinSpace]
      simp

/-- Invariant tying the running merge state to the spans consumed so far
(held in reverse order). -/
def StInv (st : MState) (consumed : List Span) : Prop :=
  ∃ c0 cs, consumed.reverse = c0 :: cs ∧
    st.mx0 = c0.x0 ∧ st.my0 = c0.y0 ∧ st.fs = c0.font_size ∧
    st.mtext = joinSpace ((c0 :: cs).map Span.text) ∧
    ∀ s ∈ consumed, s.x1 ≤ st.mx1 ∧ s.y1 ≤ st.my1

/-- What actually holds of each merged line w.r.t. its constituent spans:
the bbox's left/top are the FIRST constituent's `x0`/`y0` (not a min over
constituents), its right/bottom bound all constituents' `x1`/`y1`, and the
text is the whitespace-trimmed space-join of the constituents' texts in
original order. -/
def MergedOk (m : Merged) (cs : List Span) : Prop :=
  ∃ c0 cs', cs = c0 :: cs' ∧
    m.x0 = c0.x0 ∧ m.y0 = c0.y0 ∧
    (∀ s ∈ cs, s.x1 ≤ m.x1 ∧ s.y1 ≤ m.y1) ∧
    m.text = pyStrip (joinSpace (cs.map Span.text))

theorem StInv_init (s : Span) : StInv (initState s) [s] := by
  refine ⟨s, [], rfl, rfl, rfl, rfl, rfl, ?_⟩
  intro t ht
  simp only [List.mem_singleton] at ht
  subst ht
  exact ⟨le_refl _, le_refl _⟩

theorem StInv_upd (st : MState) (cons : List Span) (next : Span)
    (h : StInv st cons) : StInv (updState st next) (next :: cons) := by
  obtain ⟨c0, cs, hrev, hx0, hy0, hfs, htext, hbnd⟩ := h
  refine ⟨c0, cs ++ [next], by simp [hrev], hx0, hy0, hfs, ?_, ?_⟩
  · have hne : (c0 :: cs).map Span.text ≠ [] := by simp
    calc (updState st next).mtext
        = joinSpace ((c0 :: cs).map Span.text) ++ ' ' :: next.text := by
          simp [updState, htext]
      _ = joinSpace (((c0 :: cs).map Span.text) ++ [next.text]) :=
          (joinSpace_append_single _ _ hne).symm
      _ = joinSpace ((c0 :: (cs ++ [next])).map Span.text) := by simp
  · intro s hs
    rcases List.mem_cons.mp hs with h1 | h2
    · subst h1
      exact ⟨le_max_of_le_right (le_refl _), le_max_of_le_right (le_refl _)⟩
    · obtain ⟨hx, hy⟩ := hbnd s h2
      exact ⟨le_max_of_le_left hx, le_max_of_le_left hy⟩

theorem mkMerged_ok (st : MState) (cons : List Span) (h : StInv st cons) :
    MergedOk (mkMerged st) cons.reverse := by
  obtain ⟨c0, cs, hrev, hx0, hy0, hfs, htext, hbnd⟩ := h
  refine ⟨c0, cs, hrev, hx0, hy0, ?_, ?_⟩
  · intro s hs
    exact hbnd s (by simpa using (List.mem_reverse.mp hs))
  · rw [hrev] at *
    simp [mkMerged, htext]

theorem mergeLoopC_ok (rest : List Span) : ∀ (st : MState) (cons : List Span),
    StInv st cons → ∀ mc ∈ mergeLoopC st cons rest, MergedOk mc.1 mc.2 := by
  induction rest with
  | nil =>
    intro st cons h mc hmc
    simp only [mergeLoopC, List.mem_singleton] at hmc
    subst hmc
    exact mkMerged_ok st cons h
  | cons next rs ih =>
    intro st cons h mc hmc
    simp only [mergeLoopC] at hmc
    split at hmc
    · exact ih _ _ (StInv_upd st cons next h) mc hmc
    · rcases List.mem_cons.mp hmc with h1 | h2
      · subst h1
        exact mkMerged_ok st cons h
      · exact ih _ _ (StInv_init next) mc h2

/-- C5 (amended): for every merged line produced by the span merger (paired
with its constituent spans by the instrumented merger), the merged bbox's
`x1`/`y1` bound all constituents' `x1`/`y1`, its `x0`/`y0` are the first
constituent's (so a constituent starting left of the first span can stick out
of the merged bbox), and the text is the trimmed space-join of the
constituents' texts in original order. -/
theorem merged_line_bbox_and_text (p : List Span) (m : Merged) (cs : List Span)
    (h : (m, cs) ∈ mergeHeadingSpansC p) : MergedOk m cs := by
  cases p with
  | nil => simp [mergeHeadingSpansC] at h
  | cons s rest =>
    exact mergeLoopC_ok rest (initState s) [s] (StInv_init s) (m, cs) h

/-- First span of the C5 counterexample page. -/
def c5SpanA : Span := ⟨"First part".toList, 16, true, 0, 100, 100, 200, 110, 10⟩

/-- Second span of the C5 counterexample page: starts 10pt left of the first
(allowed by the horizontal-alignment criterion, |90 - 100| < 15). -/
def c5SpanB : Span := ⟨"second part".toList, 16, true, 0, 90, 112, 210, 122, 10⟩

/-- The merged line the code produces for the C5 counterexample page. -/
def c5Line : Merged := ⟨"First part second part".toList, 16, true, 0, 100, 100, 210, 122⟩

/-- C5 counterexample: the two spans merge into one line whose bbox keeps the
first span's `x0 = 100`, while constituent `c5SpanB` has `x0 = 90 < 100`, so
that constituent's bounding box does NOT lie within the merged bbox. -/
theorem merged_bbox_not_bounding : mergeHeadingSpansC [c5SpanA, c5SpanB] =
    [(c5Line, [c5SpanA, c5SpanB])] ∧ c5SpanB.x0 < c5Line.x0 := by
  have h : ShouldMerge (initState c5SpanA) c5SpanB := by
    norm_num [ShouldMerge, FiveCriteria, endsPunct, pyStrip, pyWords, pyAbs, initState,
      c5SpanA, c5SpanB]
    decide
  constructor
  · simp only [mergeHeadingSpansC, mergeLoopC, if_pos h]
    norm_num [mkMerged, updState, initState, c5SpanA, c5SpanB, c5Line]
    decide
  · norm_num [c5SpanB, c5Line]

/-- The merged line produced from a page holding only `c5SpanA`. -/
def c5Single : Merged := ⟨"First part".toList, 16, true, 0, 100, 100, 200, 110⟩

/-- Witness for C5's amended theorem at a concrete single-span page. -/
theorem merged_line_bbox_and_text_witness :
    (c5Single, [c5SpanA]) ∈ mergeHeadingSpansC [c5SpanA] ∧
    MergedOk c5Single [c5SpanA] :=
  ⟨by decide, merged_line_bbox_and_text [c5SpanA] c5Single [c5SpanA] (by decide)⟩

/-- C6: once the running merged text ends in sentence punctuation, the next
span is not merged — the running line is finalized and a new line starts at
the next span — even when all five merge criteria hold for it. -/
theorem punct_stops_merging (st : MState) (next : Span) (rs : List Span)
    (hp : endsPunct st.mtext = true) (_hc : FiveCriteria st next) :
    mergeLoop st (next :: rs) = mkMerged st :: mergeLoop (initState next) rs := by
  simp only [mergeLoop]
  rw [if_neg]
  rintro ⟨h1, -⟩
  rw [hp] at h1
  exact Bool.noConfusion h1

/-- A span whose text ends in a period, for the C6 witness. -/
def c6SpanA : Span := ⟨"Sentence ends here.".toList, 16, true, 0, 100, 100, 200, 110, 10⟩

/-- A continuation span satisfying all five merge criteria w.r.t. `c6SpanA`. -/
def c6SpanB : Span := ⟨"next line".toList, 16, true, 0, 100, 112, 200, 122, 10⟩

/-- Witness for C6 at a concrete state and span: the five criteria all hold,
the running text ends in punctuation, and the merger still splits. -/
theorem punct_stops_merging_witness :
    endsPunct (initState c6SpanA).mtext = true ∧
    FiveCriteria (initState c6SpanA) c6SpanB ∧
    mergeLoop (initState c6SpanA) [c6SpanB] =
      mkMerged (initState c6SpanA) :: mergeLoop (initState c6SpanB) [] :=
  ⟨by decide,
   by norm_num [FiveCriteria, pyWords, pyAbs, initState, c6SpanA, c6SpanB],
   punct_stops_merging (initState c6SpanA) c6SpanB [] (by decide)
     (by norm_num [FiveCriteria, pyWords, pyAbs, initState, c6SpanA, c6SpanB])⟩

/-- Reinterpreting a merged line as a single extractor span, for re-running
the merger on its own output (the spec's reading of "treating each MergedLine
as a single-span page"); `line_height` is `y1 - y0` exactly as the extractor
computes it (document_parser.py:46).  (The literal code would fail here: the
merger reads `current["line_height"]`, a key its own output dicts lack.) -/
def mergedToSpan (m : Merged) : Span :=
  ⟨m.text, m.font_size, m.is_bold, m.page, m.x0, m.y0, m.x1, m.y1, m.y1 - m.y0⟩

/-- First span of the C3 counterexample page: a two-span heading followed by a
separate heading 18pt below (beyond 1.5 x the last span's 10pt line height,
but within 1.5 x the taller merged line's 22pt height). -/
def c3SpanA : Span := ⟨"Heading part one".toList, 16, true, 0, 100, 100, 300, 110, 10⟩

/-- Second span of the C3 counterexample page. -/
def c3SpanB : Span := ⟨"part two".toList, 16, true, 0, 100, 112, 300, 122, 10⟩

/-- Third span of the C3 counterexample page. -/
def c3SpanC : Span := ⟨"another heading".toList, 16, true, 0, 100, 140, 300, 150, 10⟩

/-- C3 counterexample: the merger is NOT idempotent.  On the page
`[c3SpanA, c3SpanB, c3SpanC]` it produces two merged lines, but re-running it
on those two lines (as single-span inputs) merges them into one, because the
first merged line's taller bbox loosens the vertical-proximity window. -/
theorem merger_not_idempotent :
    mergeHeadingSpans ((mergeHeadingSpans [c3SpanA, c3SpanB, c3SpanC]).map mergedToSpan) ≠
      mergeHeadingSpans [c3SpanA, c3SpanB, c3SpanC] := by
  have h1 : ShouldMerge (initState c3SpanA) c3SpanB := by
    norm_num [ShouldMerge, FiveCriteria, endsPunct, pyStrip, pyWords, pyAbs, initState,
      c3SpanA, c3SpanB]
    decide
  have h2 : ¬ ShouldMerge (updState (initState c3SpanA) c3SpanB) c3SpanC := by
    norm_num [ShouldMerge, FiveCriteria, endsPunct, pyStrip, pyWords, pyAbs, initState,
      updState, c3SpanA, c3SpanB, c3SpanC]
  have hinner : mergeHeadingSpans [c3SpanA, c3SpanB, c3SpanC] =
      [mkMerged (updState (initState c3SpanA) c3SpanB), mkMerged (initState c3SpanC)] := by
    simp only [mergeHeadingSpans, mergeLoop, if_pos h1, if_neg h2]
  rw [hinner]
  have h3 : ShouldMerge
      (initState (mergedToSpan (mkMerged (updState (initState c3SpanA) c3SpanB))))
      (mergedToSpan (mkMerged (initState c3SpanC))) := by
    norm_num [ShouldMerge, FiveCriteria, endsPunct, pyStrip, pyWords, pyAbs, initState,
      updState, mkMerged, mergedToSpan, joinSpace, c3SpanA, c3SpanB, c3SpanC]
    decide
  simp only [List.map_cons, List.map_nil, mergeHeadingSpans, mergeLoop, if_pos h3]
  intro hcontra
  have := congrArg List.length hcontra
  simp at this

/-- C3 (amended): the merger is idempotent on single-line pages — re-running
it on one merged line whose text is whitespace-trimmed (as all merger outputs
are) returns exactly that line.  In general idempotence fails (see the
counterexample). -/
theorem merger_idempotent_single (m : Merged) (h : pyStrip m.text = m.text) :
    mergeHeadingSpans [mergedToSpan m] = [m] := by
  cases m with
  | mk text fs bold page x0 y0 x1 y1 =>
    simp only [mergeHeadingSpans, mergeLoop, mkMerged, initState, mergedToSpan] at *
    simp [h]

/-- A concrete merged line for the C3 witness. -/
def c3Single : Merged := ⟨"Standalone heading".toList, 14, true, 2, 50, 60, 200, 72⟩

/-- Witness for C3's amended theorem at a concrete merged line. -/
theorem merger_idempotent_single_witness :
    pyStrip c3Single.text = c3Single.text ∧
    mergeHeadingSpans [mergedToSpan c3Single] = [c3Single] :=
  ⟨by decide, merger_idempotent_single c3Single (by decide)⟩

/-- Python `round(x, 1)` (document_parser.py:162), embedded as rounding to the
nearest tenth; Python's float banker's rounding differs only at exact `.05`
ties, which none of the statements here touch. -/
def pyRound1 (q : ℚ) : ℚ := (round (q * 10) : ℤ) / 10

/-- The keys of `Counter(...)` in first-insertion order (document_parser.py:162);
only their set matters here because the code immediately sorts them. -/
def pyKeys : List ℚ → List ℚ
  | [] => []
  | x :: rest => x :: pyKeys (rest.filter (fun y => decide (y ≠ x)))
termination_by l => l.length
decreasing_by
  simp only [List.length_cons]
  exact Nat.lt_succ_of_le (List.length_filter_le _ _)

/-- Multiplicity of `x`, embedding `Counter`'s counts (document_parser.py:162). -/
def pyCount (x : ℚ) : List ℚ → ℕ
  | [] => 0
  | y :: rest => (if y = x then 1 else 0) + pyCount x rest

/-- The `relevant_sizes` list (document_parser.py:164): rounded sizes at least
10 occurring more than once, sorted descending (`sorted(..., reverse=True)`). -/
def relevantSizes (sizes : List ℚ) : List ℚ :=
  let rounded := sizes.map pyRound1
  ((pyKeys rounded).filter
    (fun s => decide (10 ≤ s) && decide (2 ≤ pyCount s rounded))).mergeSort
      (fun a b => decide (b ≤ a))

/-- The floor-and-gap adjustment stage of the threshold inferencer
(document_parser.py:173-181): absolute floors via `max`, then three sequential
pushes `title`, `h1`, `h2` (each reading the already-floored values). -/
def adjustStage (t0 r1 r2 r3 : ℚ) : ℚ × ℚ × ℚ × ℚ :=
  let t1 := max t0 20
  let a1 := max r1 16
  let b1 := max r2 13
  let c1 := max r3 11
  let t2 := if t1 ≤ a1 + 2 then a1 + 5/2 else t1
  let a2 := if a1 ≤ b1 + 1 then b1 + 3/2 else a1
  let b2 := if b1 ≤ c1 + 1 then c1 + 3/2 else b1
  (t2, a2, b2, c1)

/-- The threshold inferencer (document_parser.py:162-181): seed
title/h1/h2/h3 from the top four relevant sizes with the code's fallbacks,
then apply the floor-and-gap adjustment stage. -/
def inferThresholds (sizes : List ℚ) : ℚ × ℚ × ℚ × ℚ :=
  let rel := relevantSizes sizes
  let title0 : ℚ := match rel with
    | [] => 24
    | r0 :: _ => r0
  let h1raw : ℚ := match rel with
    | _ :: r1 :: _ => r1
    | _ => if title0 ≠ 0 then title0 * (9/10) else 18
  let h2raw : ℚ := match rel with
    | _ :: _ :: r2 :: _ => r2
    | _ => if h1raw ≠ 0 then h1raw * (9/10) else 14
  let h3raw : ℚ := match rel with
    | _ :: _ :: _ :: r3 :: _ => r3
    | _ => if h2raw ≠ 0 then h2raw * (9/10) else 12
  adjustStage title0 h1raw h2raw h3raw

/-- The threshold properties claimed by the spec (C2): strict ordering with
the stated floors and minimum pairwise gaps. -/
def SpecThresholdProps : ℚ × ℚ × ℚ × ℚ → Prop
  | (t, a, b, c) =>
      a < t ∧ b < a ∧ c < b ∧
      20 ≤ t ∧ 16 ≤ a ∧ 13 ≤ b ∧ 11 ≤ c ∧
      a + 5/2 ≤ t ∧ b + 3/2 ≤ a ∧ c + 3/2 ≤ b

/-- The threshold properties the code actually guarantees: the floors, title
strictly above h1, h2, h3, and h3 strictly below h1 and h2.  (h1 > h2 and the
minimum gaps can fail, because the three gap pushes run sequentially and a
later push can overtake an earlier level.) -/
def ThresholdPartialProps : ℚ × ℚ × ℚ × ℚ → Prop
  | (t, a, b, c) =>
      20 ≤ t ∧ 16 ≤ a ∧ 13 ≤ b ∧ 11 ≤ c ∧
      a < t ∧ b < t ∧ c < t ∧ c < a ∧ c < b

theorem adjustStage_props (t0 r1 r2 r3 : ℚ) (h21 : r2 < r1) (h32 : r3 < r2) :
    ThresholdPartialProps (adjustStage t0 r1 r2 r3) := by
  have hba : max r2 13 ≤ max r1 16 := max_le_max (le_of_lt h21) (by norm_num)
  have hcb : max r3 11 < max r2 13 := max_lt_max h32 (by norm_num)
  have ht20 : (20:ℚ) ≤ max t0 20 := le_max_right _ _
  have ha16 : (16:ℚ) ≤ max r1 16 := le_max_right _ _
  have hb13 : (13:ℚ) ≤ max r2 13 := le_max_right _ _
  have hc11 : (11:ℚ) ≤ max r3 11 := le_max_right _ _
  simp only [adjustStage, ThresholdPartialProps]
  split_ifs with hT hA hB <;>
    refine ⟨by linarith, by linarith, by linarith, by linarith,
      by linarith, by linarith, by linarith, by linarith, by linarith⟩

theorem relevantSizes_pairwise (sizes : List ℚ) :
    (relevantSizes sizes).Pairwise (fun a b => b ≤ a) := by
  have h := @List.sorted_mergeSort ℚ (fun a b => decide (b ≤ a))
    (by
      intro a b c hab hbc
      simp only [decide_eq_true_eq] at *
      exact le_trans hbc hab)
    (by
      intro a b
      simp only [Bool.or_eq_true, decide_eq_true_eq]
      exact le_total b a)
    ((pyKeys (sizes.map pyRound1)).filter
      (fun s => decide (10 ≤ s) && decide (2 ≤ pyCount s (sizes.map pyRound1))))
  refine List.Pairwise.imp ?_ h
  intro a b hab
  simpa using hab

theorem mem_pyKeys (l : List ℚ) : ∀ x ∈ pyKeys l, x ∈ l := by
  induction l using pyKeys.induct with
  | case1 => simp [pyKeys]
  | case2 y rest ih =>
    intro x hx
    rw [pyKeys] at hx
    rcases List.mem_cons.mp hx with h | h
    · simp [h]
    · have := ih x h
      exact List.mem_cons_of_mem _ (List.mem_of_mem_filter this)

theorem pyKeys_nodup (l : List ℚ) : (pyKeys l).Nodup := by
  induction l using pyKeys.induct with
  | case1 => simp [pyKeys]
  | case2 y rest ih =>
    rw [pyKeys]
    refine List.nodup_cons.mpr ⟨?_, ih⟩
    intro hmem
    have := mem_pyKeys _ y hmem
    have := List.mem_filter.mp this
    simp at this

theorem relevantSizes_nodup (sizes : List ℚ) : (relevantSizes sizes).Nodup := by
  have hperm := List.mergeSort_perm
    ((pyKeys (sizes.map pyRound1)).filter
      (fun s => decide (10 ≤ s) && decide (2 ≤ pyCount s (sizes.map pyRound1))))
    (fun a b => decide (b ≤ a))
  exact hperm.nodup_iff.mpr ((pyKeys_nodup _).filter _)

theorem relevantSizes_ten_le (sizes : List ℚ) :
    ∀ x ∈ relevantSizes sizes, (10:ℚ) ≤ x := by
  intro x hx
  have hx' := List.mem_mergeSort.mp hx
  have := List.mem_filter.mp hx'
  simp only [Bool.and_eq_true, decide_eq_true_eq] at this
  exact this.2.1

/-- C2 (amended): for every document with a non-empty size histogram, the
inferred thresholds satisfy the absolute floors, title strictly exceeds h1,
h2 and h3, and h3 is strictly below h1 and h2.  (The full ordering h1 > h2
and the claimed minimum pairwise gaps are NOT guaranteed; see the
counterexample.) -/
theorem thresholds_partial_order (sizes : List ℚ) (_h : sizes ≠ []) :
    ThresholdPartialProps (inferThresholds sizes) := by
  rcases hrel : relevantSizes sizes with _ | ⟨r0, _ | ⟨r1, _ | ⟨r2, _ | ⟨r3, rest⟩⟩⟩⟩
  · simp only [inferThresholds, hrel]
    norm_num
    exact adjustStage_props _ _ _ _ (by norm_num) (by norm_num)
  · have h0 : (10:ℚ) ≤ r0 := relevantSizes_ten_le sizes r0 (by rw [hrel]; simp)
    have hne0 : r0 ≠ 0 := by linarith
    simp only [inferThresholds, hrel]
    rw [if_pos hne0, if_pos (by intro hc; apply hne0; linarith : r0 * (9/10) ≠ 0),
      if_pos (by intro hc; apply hne0; linarith : r0 * (9/10) * (9/10) ≠ 0)]
    exact adjustStage_props _ _ _ _ (by nlinarith) (by nlinarith)
  · have h1 : (10:ℚ) ≤ r1 := relevantSizes_ten_le sizes r1 (by rw [hrel]; simp)
    have hne1 : r1 ≠ 0 := by linarith
    simp only [inferThresholds, hrel]
    rw [if_pos hne1, if_pos (by intro hc; apply hne1; linarith : r1 * (9/10) ≠ 0)]
    exact adjustStage_props _ _ _ _ (by nlinarith) (by nlinarith)
  · have h2 : (10:ℚ) ≤ r2 := relevantSizes_ten_le sizes r2 (by rw [hrel]; simp)
    have hp := relevantSizes_pairwise sizes
    have hnd := relevantSizes_nodup sizes
    rw [hrel] at hp hnd
    have h21 : r2 ≤ r1 := (List.pairwise_cons.mp (List.pairwise_cons.mp hp).2).1 r2 (by simp)
    have hne21 : r1 ≠ r2 := by
      have := (List.nodup_cons.mp (List.nodup_cons.mp hnd).2).1
      simp only [List.mem_cons, List.mem_singleton] at this
      intro he
      exact this (Or.inl he)
    have hlt : r2 < r1 := lt_of_le_of_ne h21 (fun he => hne21 he.symm)
    have hne2 : r2 ≠ 0 := by linarith
    simp only [inferThresholds, hrel]
    rw [if_pos hne2]
    exact adjustStage_props _ _ _ _ hlt (by nlinarith)
  · have hp := relevantSizes_pairwise sizes
    have hnd := relevantSizes_nodup sizes
    rw [hrel] at hp hnd
    have h21 : r2 ≤ r1 := (List.pairwise_cons.mp (List.pairwise_cons.mp hp).2).1 r2 (by simp)
    have h32 : r3 ≤ r2 :=
      (List.pairwise_cons.mp (List.pairwise_cons.mp (List.pairwise_cons.mp hp).2).2).1 r3 (by simp)
    have hn1 := (List.nodup_cons.mp (List.nodup_cons.mp hnd).2).1
    have hn2 := (List.nodup_cons.mp (List.nodup_cons.mp (List.nodup_cons.mp hnd).2).2).1
    simp only [List.mem_cons] at hn1 hn2
    have hlt21 : r2 < r1 := lt_of_le_of_ne h21 (fun he => hn1 (Or.inl he.symm))
    have hlt32 : r3 < r2 := lt_of_le_of_ne h32 (fun he => hn2 (Or.inl he.symm))
    simp only [inferThresholds, hrel]
    exact adjustStage_props _ _ _ _ hlt21 hlt32

/-- The merged-line font sizes of the C2 counterexample document: sizes
30, 15, 14.8, 14.6, each occurring twice. -/
def c2Sizes : List ℚ := [30, 30, 15, 15, 74/5, 74/5, 73/5, 73/5]

/-- C2 counterexample: on the histogram {30: 2, 15: 2, 14.8: 2, 14.6: 2} the
inferencer returns `(title, h1, h2, h3) = (30, 16, 16.1, 14.6)` — the floor
pushes h1 to 16, then the h2 gap push lifts h2 past it to 16.1, so `h1 > h2`
fails (and so do the claimed minimum gaps). -/
theorem thresholds_spec_cex : ¬ SpecThresholdProps (inferThresholds c2Sizes) := by
  have hfil : (pyKeys (c2Sizes.map pyRound1)).filter
      (fun s => decide (10 ≤ s) && decide (2 ≤ pyCount s (c2Sizes.map pyRound1))) =
      [30, 15, 74/5, 73/5] := by
    norm_num [c2Sizes, pyRound1, round_eq, pyKeys, pyCount]
  have hrel : relevantSizes c2Sizes = [30, 15, 74/5, 73/5] := by
    unfold relevantSizes
    simp only []
    rw [hfil]
    exact List.mergeSort_of_sorted (by norm_num [List.pairwise_cons])
  have hval : inferThresholds c2Sizes = (30, 16, 161/10, 73/5) := by
    simp only [inferThresholds, hrel]
    norm_num [adjustStage, max_def]
  rw [hval]
  simp only [SpecThresholdProps]
  norm_num

/-- Witness for C2's amended theorem at a concrete non-empty size list. -/
theorem thresholds_partial_order_witness :
    ([(9:ℚ)] ≠ []) ∧ ThresholdPartialProps (inferThresholds [(9:ℚ)]) :=
  ⟨by simp, thresholds_partial_order [(9:ℚ)] (by simp)⟩

/-- Heading levels of outline candidates and entries ("H1"/"H2"/"H3"). -/
inductive HLevel
  | H1
  | H2
  | H3
  deriving DecidableEq

/-- Section-marker levels: the title pseudo-level "H0" or a heading level. -/
inductive SLevel
  | H0
  | HL (h : HLevel)
  deriving DecidableEq

/-- A structured section record (document_parser.py:567-573); `page_number`
is the marker's 0-indexed page plus one. -/
structure Section where
  document_filename : Str
  section_title : Str
  page_number : ℕ
  text_content : Str
  level : SLevel
  deriving DecidableEq

/-- Auxiliary scanner for Python `str.count`: `skip` is the number of
characters still inside the previously matched occurrence. -/
def countAux (pat : Str) : ℕ → Str → ℕ
  | _, [] => 0
  | skip+1, _ :: rest => countAux pat skip rest
  | 0, c :: rest =>
    if pat.isPrefixOf (c :: rest) then 1 + countAux pat (pat.length - 1) rest
    else countAux pat 0 rest

/-- Python `s.count(pat)`: the number of non-overlapping occurrences of `pat`
in `s`, scanned left to right (Python returns `len(s) + 1` for an empty
pattern; the query keywords always have length > 2). -/
def countOccs (pat s : Str) : ℕ :=
  match pat with
  | [] => s.length + 1
  | _ :: _ => countAux pat 0 s

/-- Embeds `RelevanceScorer.calculate_relevance` (main.py:39-49): the sum over query
keywords of occurrence counts in the lowercased section text.  The Python
float accumulator only ever holds exact small integers, so the score is
embedded as `ℕ`. -/
def calculateRelevance (kws : List Str) (text : Str) : ℕ :=
  (kws.map (fun kw => countOccs kw (pyLower text))).sum

/-- A section together with its assigned `importance_rank` (main.py:64-65). -/
structure RankedSection where
  sec : Section
  importance_rank : ℕ
  deriving DecidableEq

/-- The comparison used by `sorted(..., key=lambda x: x["score"], reverse=True)`
(main.py:61): descending by score. -/
def scoreLE (kws : List Str) (a b : Section) : Bool :=
  decide (calculateRelevance kws b.text_content ≤ calculateRelevance kws a.text_content)

/-- Embeds `RelevanceScorer.rank_sections` (main.py:51-68): score each section, sort
descending by score (Python `sorted` is stable, embedded by `mergeSort`), and
assign 1-indexed ranks in sorted order (the temporary score key is dropped). -/
def rankSections (kws : List Str) (sections : List Section) : List RankedSection :=
  ((sections.mergeSort (scoreLE kws)).enum).map (fun p => ⟨p.2, p.1 + 1⟩)

/-- C7: `rank_sections` returns a permutation of its input whose rank fields
are exactly 1, 2, ..., n in output order, whose output order is
non-increasing in score, and in which sections with equal scores keep their
original relative order. -/
theorem rank_sections_spec (kws : List Str) (secs : List Section) :
    ((rankSections kws secs).map RankedSection.sec).Perm secs ∧
    (rankSections kws secs).map RankedSection.importance_rank = List.range' 1 secs.length ∧
    ((rankSections kws secs).map RankedSection.sec).Pairwise
      (fun a b => calculateRelevance kws b.text_content ≤ calculateRelevance kws a.text_content) ∧
    (∀ s t : Section, List.Sublist [s, t] secs →
      calculateRelevance kws s.text_content = calculateRelevance kws t.text_content →
      List.Sublist [s, t] ((rankSections kws secs).map RankedSection.sec)) := by
  have hmap : (rankSections kws secs).map RankedSection.sec = secs.mergeSort (scoreLE kws) := by
    unfold rankSections
    rw [List.map_map]
    have hcomp : (RankedSection.sec ∘ fun p : ℕ × Section => (⟨p.2, p.1 + 1⟩ : RankedSection)) =
        Prod.snd := rfl
    rw [hcomp, List.enum_map_snd]
  have htrans : ∀ a b c : Section, scoreLE kws a b → scoreLE kws b c → scoreLE kws a c := by
    intro a b c hab hbc
    simp only [scoreLE, decide_eq_true_eq] at *
    exact le_trans hbc hab
  have htotal : ∀ a b : Section, scoreLE kws a b || scoreLE kws b a := by
    intro a b
    simp only [scoreLE, Bool.or_eq_true, decide_eq_true_eq]
    exact le_total _ _
  refine ⟨?_, ?_, ?_, ?_⟩
  · rw [hmap]
    exact List.mergeSort_perm secs _
  · unfold rankSections
    rw [List.map_map]
    have hcomp : (RankedSection.importance_rank ∘
        fun p : ℕ × Section => (⟨p.2, p.1 + 1⟩ : RankedSection)) =
        (fun i => i + 1) ∘ Prod.fst := rfl
    rw [hcomp, ← List.map_map, List.enum_map_fst, List.length_mergeSort,
      List.range'_eq_map_range]
    exact List.map_congr_left (fun i _ => Nat.add_comm i 1)
  · rw [hmap]
    refine (List.sorted_mergeSort htrans htotal secs).imp ?_
    intro a b h
    simpa [scoreLE] using h
  · intro s t hsub heq
    rw [hmap]
    exact List.pair_sublist_mergeSort htrans htotal (by simp [scoreLE, heq]) hsub

/-- Query keywords for the C7 witness. -/
def c7Kws : List Str := ["day".toList]

/-- First C7 witness section (score 2). -/
def c7SecA : Section := ⟨"a.pdf".toList, "A".toList, 1, "day one day".toList, SLevel.HL HLevel.H1⟩

/-- Second C7 witness section (score 2, tied with the first). -/
def c7SecB : Section := ⟨"b.pdf".toList, "B".toList, 1, "day two day".toList, SLevel.HL HLevel.H1⟩

/-- Third C7 witness section (score 1). -/
def c7SecC : Section := ⟨"c.pdf".toList, "C".toList, 2, "one day".toList, SLevel.HL HLevel.H2⟩

/-- The C7 witness batch, already in descending-score order with a tie. -/
def c7Secs : List Section := [c7SecA, c7SecB, c7SecC]

/-- Witness for C7 at a concrete batch with a score tie: the tied pair keeps
its input order in the ranked output. -/
theorem rank_sections_spec_witness :
    List.Sublist [c7SecA, c7SecB] c7Secs ∧
    calculateRelevance c7Kws c7SecA.text_content = calculateRelevance c7Kws c7SecB.text_content ∧
    List.Sublist [c7SecA, c7SecB] ((rankSections c7Kws c7Secs).map RankedSection.sec) :=
  ⟨by decide, by decide,
    (rank_sections_spec c7Kws c7Secs).2.2.2 c7SecA c7SecB (by decide) (by decide)⟩

/-- Sentence-splitting state machine embedding `re.split(r'(?<=[.!?])\s+', text)`
(main.py:85): a maximal whitespace run immediately preceded by sentence
punctuation separates sentences and is dropped.  `inGap` is true while
consuming such a run; `acc` holds the current sentence reversed. -/
def sentAux : Bool → Str → Str → List Str
  | _, acc, [] => [acc.reverse]
  | true, acc, c :: rest =>
    if c.isWhitespace then sentAux true acc rest
    else sentAux false (c :: acc) rest
  | false, acc, c :: rest =>
    if (match acc.head? with | some p => sentencePunct p | none => false) && c.isWhitespace then
      acc.reverse :: sentAux true [] rest
    else sentAux false (c :: acc) rest

/-- The sentence list of `SubSectionAnalyzer.analyze` (main.py:85). -/
def splitSentences (s : Str) : List Str := sentAux false [] s

/-- The output record of `SubSectionAnalyzer.analyze` (main.py:94-99). -/
structure SubSection where
  document : Str
  page_number : ℕ
  section_title : Str
  refined_text : Str
  deriving DecidableEq

/-- Python `"\n".join(...)` (main.py:92). -/
def joinNL : List Str → Str
  | [] => []
  | [x] => x
  | x :: y :: rest => x ++ '\n' :: joinNL (y :: rest)

/-- Embeds `SubSectionAnalyzer.analyze` (main.py:78-99): keep the stripped sentences
containing any query keyword (substring test on the lowercased sentence),
joined with newlines; with no match, fall back to the first 500 characters
plus `"..."` when the text exceeds 500 characters, else the whole text. -/
def analyze (kws : List Str) (sec : Section) : SubSection :=
  let sentences := splitSentences sec.text_content
  let snippets := (sentences.filter
    (fun sentence => kws.any (fun kw => decide (List.IsInfix kw (pyLower sentence))))).map pyStrip
  let refined : Str :=
    if snippets ≠ [] then joinNL snippets
    else if 500 < sec.text_content.length then sec.text_content.take 500 ++ "...".toList
    else sec.text_content
  ⟨sec.document_filename, sec.page_number, sec.section_title, refined⟩

/-- The spec's sentence selection (C8): the subset of the section's sentences
that contain at least one query keyword, whitespace-stripped, in original
order. -/
def matchingSnippets (kws : List Str) (sec : Section) : List Str :=
  ((splitSentences sec.text_content).filter
    (fun sentence => kws.any (fun kw => decide (List.IsInfix kw (pyLower sentence))))).map pyStrip

/-- The refined text as the spec describes it, amended on the fallback: the
first 500 characters FOLLOWED BY an ellipsis when the body exceeds 500
characters (the whole body otherwise). -/
def specRefined (kws : List Str) (sec : Section) : Str :=
  if matchingSnippets kws sec ≠ [] then joinNL (matchingSnippets kws sec)
  else if 500 < sec.text_content.length then sec.text_content.take 500 ++ "...".toList
  else sec.text_content

/-- C8 (amended): the analyzer's output carries the section's document, page
and title, and its refined text is the keyword-matching sentence subset
joined in order — falling back, when no sentence matches, to the first 500
characters plus an ellipsis (or the whole body when it is short). -/
theorem analyze_matches_spec (kws : List Str) (sec : Section) :
    analyze kws sec =
      ⟨sec.document_filename, sec.page_number, sec.section_title, specRefined kws sec⟩ := rfl

/-- The C8 counterexample section: a 501-character body with no sentence
matching the query keyword. -/
def c8Sec : Section :=
  ⟨"doc.pdf".toList, "T".toList, 3, List.replicate 501 'z', SLevel.HL HLevel.H1⟩

/-- The C8 query keywords. -/
def c8Kws : List Str := ["trip".toList]

set_option maxRecDepth 20000 in
/-- C8 counterexample: with no matching sentence and a 501-character body the
refined text is the first 500 characters PLUS `"..."`, not the first 500
characters as claimed. -/
theorem analyze_fallback_cex :
    (analyze c8Kws c8Sec).refined_text ≠ c8Sec.text_content.take 500 := by
  decide

/-- A heading candidate before hierarchy reconciliation
(document_parser.py:345-351). -/
structure HCand where
  level : HLevel
  text : Str
  page : ℕ
  y0 : ℚ
  x0 : ℚ
  deriving DecidableEq

/-- A final outline entry (document_parser.py:370). -/
structure OEntry where
  level : HLevel
  text : Str
  page : ℕ
  deriving DecidableEq

/-- A "last seen" anchor `{"page": p, "y0": y}` (document_parser.py:360-362);
page `-1` (with y0 `-1`) marks an unset anchor. -/
structure Anchor where
  page : Int
  y0 : ℚ
  deriving DecidableEq

/-- The initial anchor value `{"page": -1, "y0": -1}`. -/
def Anchor.unset : Anchor := ⟨-1, -1⟩

/-- The strictly-after test
`page > a["page"] or (page == a["page"] and y0 > a["y0"])`
(document_parser.py:382 and the analogous lines). -/
def AfterA (page : ℕ) (y0 : ℚ) (a : Anchor) : Prop :=
  (page : Int) > a.page ∨ ((page : Int) = a.page ∧ y0 > a.y0)

instance (page : ℕ) (y0 : ℚ) (a : Anchor) : Decidable (AfterA page y0 a) := by
  unfold AfterA
  infer_instance

/-- The state of the enforcement loop: the outline built so far (in reverse)
and the three anchors (document_parser.py:358-362). -/
structure EnfSt where
  rev : List OEntry
  a1 : Anchor
  a2 : Anchor
  a3 : Anchor
  deriving DecidableEq

/-- The immediate-repeat check (document_parser.py:373-377): the candidate
equals the entry just appended, comparing text, page, and the candidate's
original level. -/
def repeatsLast (rev : List OEntry) (h : HCand) : Prop :=
  match rev.head? with
  | some e => e.text = h.text ∧ e.page = h.page ∧ e.level = h.level
  | none => False

instance (rev : List OEntry) (h : HCand) : Decidable (repeatsLast rev h) := by
  unfold repeatsLast
  cases rev.head? <;> infer_instance

/-- One iteration of the hierarchy-enforcement loop
(document_parser.py:364-414). -/
def enfStep (st : EnfSt) (h : HCand) : EnfSt :=
  if repeatsLast st.rev h then st
  else
    match h.level with
    | .H1 =>
      if AfterA h.page h.y0 st.a1 then
        { rev := ⟨.H1, h.text, h.page⟩ :: st.rev,
          a1 := ⟨h.page, h.y0⟩, a2 := .unset, a3 := .unset }
      else st
    | .H2 =>
      if (st.a1.page ≠ -1 ∧ AfterA h.page h.y0 st.a1) ∧ AfterA h.page h.y0 st.a2 then
        { st with rev := ⟨.H2, h.text, h.page⟩ :: st.rev, a2 := ⟨h.page, h.y0⟩, a3 := .unset }
      else if st.rev = [] ∧ AfterA h.page h.y0 st.a2 then
        { st with rev := ⟨.H1, h.text, h.page⟩ :: st.rev, a1 := ⟨h.page, h.y0⟩ }
      else st
    | .H3 =>
      if (st.a2.page ≠ -1 ∧ AfterA h.page h.y0 st.a2) ∧ AfterA h.page h.y0 st.a3 then
        { st with rev := ⟨.H3, h.text, h.page⟩ :: st.rev, a3 := ⟨h.page, h.y0⟩ }
      else if (st.a1.page ≠ -1 ∧ st.a2.page = -1 ∧ AfterA h.page h.y0 st.a1) ∧
          AfterA h.page h.y0 st.a3 then
        { st with rev := ⟨.H2, h.text, h.page⟩ :: st.rev, a2 := ⟨h.page, h.y0⟩, a3 := .unset }
      else if st.rev = [] ∧ AfterA h.page h.y0 st.a3 then
        { st with rev := ⟨.H1, h.text, h.page⟩ :: st.rev, a1 := ⟨h.page, h.y0⟩ }
      else st

/-- The `(text, page, level)` key used for de-duplication
(document_parser.py:419). -/
def keyOf (e : OEntry) : Str × ℕ × HLevel := (e.text, e.page, e.level)

/-- The final de-duplication pass (document_parser.py:416-422), keeping first
occurrences of each `(text, page, level)` key. -/
def dedupAux (seen : List (Str × ℕ × HLevel)) : List OEntry → List OEntry
  | [] => []
  | e :: rest =>
    if keyOf e ∈ seen then dedupAux seen rest
    else e :: dedupAux (keyOf e :: seen) rest

/-- The sort key `(page, y0, x0)` of the candidate sort
(document_parser.py:355), as a `Bool`-valued total preorder. -/
def candLE (a b : HCand) : Bool :=
  decide (a.page < b.page ∨ (a.page = b.page ∧
    (a.y0 < b.y0 ∨ (a.y0 = b.y0 ∧ a.x0 ≤ b.x0))))

/-- The initial enforcement state (document_parser.py:358-362). -/
def enfInit : EnfSt := ⟨[], .unset, .unset, .unset⟩

/-- The hierarchy-enforcement pass (document_parser.py:355-422): stable sort
by `(page, y0, x0)`, the sequential reconciliation fold, then the final
de-duplication. -/
def hierarchyPass (cands : List HCand) : List OEntry :=
  dedupAux [] (((cands.mergeSort candLE).foldl enfStep enfInit).rev.reverse)

/-- Instrumented enforcement state: each emitted entry is paired with the
`y0` of the candidate that produced it. -/
structure EnfStC where
  rev : List (OEntry × ℚ)
  a1 : Anchor
  a2 : Anchor
  a3 : Anchor
  deriving DecidableEq

/-- Instrumented immediate-repeat check. -/
def repeatsLastC (rev : List (OEntry × ℚ)) (h : HCand) : Prop :=
  match rev.head? with
  | some e => e.1.text = h.text ∧ e.1.page = h.page ∧ e.1.level = h.level
  | none => False

instance (rev : List (OEntry × ℚ)) (h : HCand) : Decidable (repeatsLastC rev h) := by
  unfold repeatsLastC
  cases rev.head? <;> infer_instance

/-- Instrumented enforcement step, mirroring `enfStep` while recording the
source candidate's `y0` with each emitted entry. -/
def enfStepC (st : EnfStC) (h : HCand) : EnfStC :=
  if repeatsLastC st.rev h then st
  else
    match h.level with
    | .H1 =>
      if AfterA h.page h.y0 st.a1 then
        { rev := (⟨.H1, h.text, h.page⟩, h.y0) :: st.rev,
          a1 := ⟨h.page, h.y0⟩, a2 := .unset, a3 := .unset }
      else st
    | .H2 =>
      if (st.a1.page ≠ -1 ∧ AfterA h.page h.y0 st.a1) ∧ AfterA h.page h.y0 st.a2 then
        { st with rev := (⟨.H2, h.text, h.page⟩, h.y0) :: st.rev, a2 := ⟨h.page, h.y0⟩, a3 := .unset }
      else if st.rev = [] ∧ AfterA h.page h.y0 st.a2 then
        { st with rev := (⟨.H1, h.text, h.page⟩, h.y0) :: st.rev, a1 := ⟨h.page, h.y0⟩ }
      else st
    | .H3 =>
      if (st.a2.page ≠ -1 ∧ AfterA h.page h.y0 st.a2) ∧ AfterA h.page h.y0 st.a3 then
        { st with rev := (⟨.H3, h.text, h.page⟩, h.y0) :: st.rev, a3 := ⟨h.page, h.y0⟩ }
      else if (st.a1.page ≠ -1 ∧ st.a2.page = -1 ∧ AfterA h.page h.y0 st.a1) ∧
          AfterA h.page h.y0 st.a3 then
        { st with rev := (⟨.H2, h.text, h.page⟩, h.y0) :: st.rev, a2 := ⟨h.page, h.y0⟩, a3 := .unset }
      else if st.rev = [] ∧ AfterA h.page h.y0 st.a3 then
        { st with rev := (⟨.H1, h.text, h.page⟩, h.y0) :: st.rev, a1 := ⟨h.page, h.y0⟩ }
      else st

/-- Instrumented de-duplication pass. -/
def dedupAuxC (seen : List (Str × ℕ × HLevel)) : List (OEntry × ℚ) → List (OEntry × ℚ)
  | [] => []
  | e :: rest =>
    if keyOf e.1 ∈ seen then dedupAuxC seen rest
    else e :: dedupAuxC (keyOf e.1 :: seen) rest

/-- The instrumented initial state. -/
def enfInitC : EnfStC := ⟨[], .unset, .unset, .unset⟩

/-- The instrumented hierarchy-enforcement pass. -/
def hierarchyPassC (cands : List HCand) : List (OEntry × ℚ) :=
  dedupAuxC [] (((cands.mergeSort candLE).foldl enfStepC enfInitC).rev.reverse)

/-- Correspondence between instrumented and plain enforcement states. -/
def RelSt (stC : EnfStC) (st : EnfSt) : Prop :=
  stC.rev.map Prod.fst = st.rev ∧ stC.a1 = st.a1 ∧ stC.a2 = st.a2 ∧ stC.a3 = st.a3

theorem repeatsLast_map (rev : List (OEntry × ℚ)) (h : HCand) :
    repeatsLast (rev.map Prod.fst) h ↔ repeatsLastC rev h := by
  cases rev <;> simp [repeatsLast, repeatsLastC]

theorem enfStepC_rel (stC : EnfStC) (st : EnfSt) (h : HCand) (hr : RelSt stC st) :
    RelSt (enfStepC stC h) (enfStep st h) := by
  obtain ⟨hrev, ha1, ha2, ha3⟩ := hr
  cases stC with
  | mk revC a1C a2C a3C =>
    cases st with
    | mk rev a1 a2 a3 =>
      simp only at hrev ha1 ha2 ha3
      subst hrev ha1 ha2 ha3
      simp only [enfStepC, enfStep, repeatsLast_map, List.map_eq_nil_iff]
      split
      · exact ⟨rfl, rfl, rfl, rfl⟩
      · cases h.level <;>
          (split_ifs <;> exact ⟨by simp, rfl, rfl, rfl⟩)

theorem foldl_enfStepC_rel (cands : List HCand) : ∀ (stC : EnfStC) (st : EnfSt),
    RelSt stC st → RelSt (cands.foldl enfStepC stC) (cands.foldl enfStep st) := by
  induction cands with
  | nil => intro stC st hr; exact hr
  | cons c cs ih =>
    intro stC st hr
    exact ih _ _ (enfStepC_rel stC st c hr)

theorem dedupAuxC_fst (l : List (OEntry × ℚ)) : ∀ seen,
    (dedupAuxC seen l).map Prod.fst = dedupAux seen (l.map Prod.fst) := by
  induction l with
  | nil => intro seen; simp [dedupAuxC, dedupAux]
  | cons e rest ih =>
    intro seen
    simp only [dedupAuxC, List.map_cons, dedupAux]
    split <;> simp [ih]

/-- Each enforcement step either leaves the outline unchanged or appends one
entry carrying the current candidate's page and `y0`. -/
theorem enfStepC_rev (st : EnfStC) (h : HCand) : (enfStepC st h).rev = st.rev ∨
    ∃ e : OEntry, (enfStepC st h).rev = (e, h.y0) :: st.rev ∧ e.page = h.page := by
  unfold enfStepC
  split
  · exact Or.inl rfl
  · cases h.level <;>
      (split_ifs <;> first
        | exact Or.inl rfl
        | exact Or.inr ⟨_, rfl, rfl⟩)

theorem foldl_rev_extend (cands : List HCand) : ∀ (st : EnfStC),
    ∃ tail, (cands.foldl enfStepC st).rev = tail ++ st.rev ∧
      List.Sublist (tail.reverse.map (fun p => (p.1.page, p.2)))
        (cands.map (fun c => (c.page, c.y0))) := by
  induction cands with
  | nil =>
    intro st
    exact ⟨[], by simp, by simp⟩
  | cons c cs ih =>
    intro st
    obtain ⟨tail', heq, hsub⟩ := ih (enfStepC st c)
    rcases enfStepC_rev st c with hsame | ⟨e, hemit, hpg⟩
    · refine ⟨tail', ?_, ?_⟩
      · simp only [List.foldl_cons, heq, hsame]
      · exact hsub.trans (List.sublist_cons_self _ _)
    · refine ⟨tail' ++ [(e, c.y0)], ?_, ?_⟩
      · simp only [List.foldl_cons, heq, hemit, List.append_assoc, List.cons_append,
          List.nil_append]
      · simp only [List.reverse_append, List.reverse_cons, List.reverse_nil,
          List.nil_append, List.map_cons, List.singleton_append, List.map_map]
        rw [hpg]
        exact List.Sublist.cons₂ _ hsub

theorem dedupAuxC_sublist (l : List (OEntry × ℚ)) : ∀ seen,
    List.Sublist (dedupAuxC seen l) l := by
  induction l with
  | nil => intro seen; simp [dedupAuxC]
  | cons e rest ih =>
    intro seen
    simp only [dedupAuxC]
    split
    · exact (ih seen).trans (List.sublist_cons_self _ _)
    · exact List.Sublist.cons₂ _ (ih _)

/-- Hierarchy well-formedness via ancestry flags: reading left to right with
`has1`/`has2` recording whether an H1/H2 entry has been passed, every H2 entry
requires `has1` and every H3 entry requires `has2` at its position. -/
def Hier : Bool → Bool → List OEntry → Prop
  | _, _, [] => True
  | has1, has2, e :: rest =>
    (e.level = .H2 → has1 = true) ∧ (e.level = .H3 → has2 = true) ∧
    Hier (has1 || decide (e.level = .H1)) (has2 || decide (e.level = .H2)) rest

theorem Hier_append_single : ∀ (l : List OEntry) (has1 has2 : Bool) (e : OEntry),
    Hier has1 has2 l →
    (e.level = .H2 → (has1 || l.any (fun x => decide (x.level = .H1))) = true) →
    (e.level = .H3 → (has2 || l.any (fun x => decide (x.level = .H2))) = true) →
    Hier has1 has2 (l ++ [e])
  | [], has1, has2, e, _, h2, h3 =>
    ⟨by simpa using h2, by simpa using h3, trivial⟩
  | x :: rest, has1, has2, e, hh, h2, h3 => by
    obtain ⟨hx2, hx3, hrest⟩ := hh
    refine ⟨hx2, hx3, Hier_append_single rest _ _ e hrest ?_ ?_⟩
    · intro he
      simpa [List.any_cons, Bool.or_assoc] using h2 he
    · intro he
      simpa [List.any_cons, Bool.or_assoc] using h3 he

/-- The enforcement-fold invariant: the reversed outline built so far is
hierarchy-well-formed, and a set H1/H2 anchor certifies an H1/H2 entry in the
outline. -/
def EnfInv (st : EnfSt) : Prop :=
  Hier false false st.rev.reverse ∧
  (st.a1.page ≠ -1 → st.rev.any (fun e => decide (e.level = .H1)) = true) ∧
  (st.a2.page ≠ -1 → st.rev.any (fun e => decide (e.level = .H2)) = true)

theorem enfStep_inv (st : EnfSt) (h : HCand) (hinv : EnfInv st) :
    EnfInv (enfStep st h) := by
  obtain ⟨hh, hA1, hA2⟩ := hinv
  obtain ⟨lvl, text, page, y0, x0⟩ := h
  unfold enfStep
  split
  · exact ⟨hh, hA1, hA2⟩
  · cases lvl with
    | H1 =>
      dsimp only
      split_ifs with hc
      · refine ⟨?_, ?_, ?_⟩
        · simp only [List.reverse_cons]
          exact Hier_append_single _ _ _ _ hh (fun he => nomatch he) (fun he => nomatch he)
        · intro _
          simp [List.any_cons]
        · intro hne
          simp [Anchor.unset] at hne
      · exact ⟨hh, hA1, hA2⟩
    | H2 =>
      dsimp only
      split_ifs with hc hc2
      · refine ⟨?_, ?_, ?_⟩
        · simp only [List.reverse_cons]
          refine Hier_append_single _ _ _ _ hh (fun _ => ?_) (fun he => nomatch he)
          simp only [Bool.false_or, List.any_reverse]
          exact hA1 hc.1.1
        · intro hne
          simp [List.any_cons, hA1 hne]
        · intro _
          simp [List.any_cons]
      · refine ⟨?_, ?_, ?_⟩
        · rw [hc2.1]
          simp only [List.reverse_cons, List.reverse_nil, List.nil_append, Hier]
          exact ⟨fun he => (nomatch he), fun he => (nomatch he), trivial⟩
        · intro _
          simp [List.any_cons]
        · intro hne
          have hfalse := hA2 hne
          rw [hc2.1] at hfalse
          simp at hfalse
      · exact ⟨hh, hA1, hA2⟩
    | H3 =>
      dsimp only
      split_ifs with hc hc2 hc3
      · refine ⟨?_, ?_, ?_⟩
        · simp only [List.reverse_cons]
          refine Hier_append_single _ _ _ _ hh (fun he => nomatch he) (fun _ => ?_)
          simp only [Bool.false_or, List.any_reverse]
          exact hA2 hc.1.1
        · intro hne
          simp [List.any_cons, hA1 hne]
        · intro hne
          simp [List.any_cons, hA2 hne]
      · refine ⟨?_, ?_, ?_⟩
        · simp only [List.reverse_cons]
          refine Hier_append_single _ _ _ _ hh (fun _ => ?_) (fun he => nomatch he)
          simp only [Bool.false_or, List.any_reverse]
          exact hA1 hc2.1.1
        · intro hne
          simp [List.any_cons, hA1 hne]
        · intro _
          simp [List.any_cons]
      · refine ⟨?_, ?_, ?_⟩
        · rw [hc3.1]
          simp only [List.reverse_cons, List.reverse_nil, List.nil_append, Hier]
          exact ⟨fun he => (nomatch he), fun he => (nomatch he), trivial⟩
        · intro _
          simp [List.any_cons]
        · intro hne
          have hfalse := hA2 hne
          rw [hc3.1] at hfalse
          simp at hfalse
      · exact ⟨hh, hA1, hA2⟩

theorem foldl_enfStep_inv (cands : List HCand) : ∀ st, EnfInv st →
    EnfInv (cands.foldl enfStep st) := by
  induction cands with
  | nil => intro st h; exact h
  | cons c cs ih => intro st h; exact ih _ (enfStep_inv st c h)

theorem Hier_split : ∀ (pre : List OEntry) (has1 has2 : Bool) (e : OEntry)
    (suf : List OEntry), Hier has1 has2 (pre ++ e :: suf) →
    (e.level = .H2 → has1 = true ∨ ∃ e' ∈ pre, e'.level = .H1) ∧
    (e.level = .H3 → has2 = true ∨ ∃ e' ∈ pre, e'.level = .H2)
  | [], has1, has2, e, suf, hh =>
    ⟨fun he => Or.inl (hh.1 he), fun he => Or.inl (hh.2.1 he)⟩
  | p :: pre', has1, has2, e, suf, hh => by
    obtain ⟨hp2, hp3, hrest⟩ := hh
    have ih := Hier_split pre' _ _ e suf hrest
    constructor
    · intro he
      rcases ih.1 he with hor | ⟨w, hw, hlw⟩
      · simp only [Bool.or_eq_true, decide_eq_true_eq] at hor
        rcases hor with h1 | h1
        · exact Or.inl h1
        · exact Or.inr ⟨p, by simp, h1⟩
      · exact Or.inr ⟨w, by simp [hw], hlw⟩
    · intro he
      rcases ih.2 he with hor | ⟨w, hw, hlw⟩
      · simp only [Bool.or_eq_true, decide_eq_true_eq] at hor
        rcases hor with h1 | h1
        · exact Or.inl h1
        · exact Or.inr ⟨p, by simp, h1⟩
      · exact Or.inr ⟨w, by simp [hw], hlw⟩

theorem Hier_dedup : ∀ (l : List OEntry) (seen : List (Str × ℕ × HLevel))
    (has1 has2 : Bool), Hier has1 has2 l →
    (∀ k ∈ seen, (k.2.2 = .H1 → has1 = true) ∧ (k.2.2 = .H2 → has2 = true)) →
    Hier has1 has2 (dedupAux seen l)
  | [], _, _, _, _, _ => trivial
  | e :: rest, seen, has1, has2, hh, hseen => by
    obtain ⟨he2, he3, hrest⟩ := hh
    rw [dedupAux]
    split_ifs with hk
    · have hk' := hseen _ hk
      simp only [keyOf] at hk'
      have hfl : (has1 || decide (e.level = .H1)) = has1 ∧
          (has2 || decide (e.level = .H2)) = has2 := by
        cases hl : e.level
        · simp [hk'.1 hl]
        · simp [hk'.2 hl]
        · simp
      exact Hier_dedup rest seen has1 has2 (by rw [← hfl.1, ← hfl.2]; exact hrest) hseen
    · refine ⟨he2, he3, Hier_dedup rest (keyOf e :: seen) _ _ hrest ?_⟩
      intro k hkmem
      rcases List.mem_cons.mp hkmem with hke | hkm
      · subst hke
        simp only [keyOf]
        exact ⟨fun h1 => by simp [h1], fun h2 => by simp [h2]⟩
      · have hold := hseen k hkm
        exact ⟨fun h1 => by simp [hold.1 h1], fun h2 => by simp [hold.2 h2]⟩

theorem dedupAux_key_nodup : ∀ (l : List OEntry) (seen : List (Str × ℕ × HLevel)),
    ((dedupAux seen l).map keyOf).Nodup ∧
    (∀ k ∈ (dedupAux seen l).map keyOf, k ∉ seen)
  | [], seen => by simp [dedupAux]
  | e :: rest, seen => by
    rw [dedupAux]
    split_ifs with hk
    · exact dedupAux_key_nodup rest seen
    · have ih := dedupAux_key_nodup rest (keyOf e :: seen)
      refine ⟨?_, ?_⟩
      · simp only [List.map_cons, List.nodup_cons]
        refine ⟨fun hmem => ?_, ih.1⟩
        exact (ih.2 _ hmem) (List.mem_cons_self _ _)
      · intro k hkm
        simp only [List.map_cons, List.mem_cons] at hkm
        rcases hkm with hke | hkm
        · subst hke
          exact hk
        · intro hks
          exact (ih.2 k hkm) (List.mem_cons_of_mem _ hks)

theorem candLE_trans : ∀ a b c : HCand, candLE a b → candLE b c → candLE a c := by
  intro a b c hab hbc
  simp only [candLE, decide_eq_true_eq] at *
  rcases hab with h | ⟨hp, h⟩
  · rcases hbc with h' | ⟨hp', h'⟩
    · exact Or.inl (lt_trans h h')
    · exact Or.inl (hp' ▸ h)
  · rcases hbc with h' | ⟨hp', h'⟩
    · exact Or.inl (hp ▸ h')
    · refine Or.inr ⟨hp.trans hp', ?_⟩
      rcases h with h | ⟨hy, h⟩
      · rcases h' with h' | ⟨hy', h'⟩
        · exact Or.inl (lt_trans h h')
        · exact Or.inl (hy' ▸ h)
      · rcases h' with h' | ⟨hy', h'⟩
        · exact Or.inl (hy ▸ h')
        · exact Or.inr ⟨hy.trans hy', le_trans h h'⟩

theorem candLE_total : ∀ a b : HCand, candLE a b || candLE b a := by
  intro a b
  simp only [candLE, Bool.or_eq_true, decide_eq_true_eq]
  rcases lt_trichotomy a.page b.page with h | h | h
  · exact Or.inl (Or.inl h)
  · rcases lt_trichotomy a.y0 b.y0 with h2 | h2 | h2
    · exact Or.inl (Or.inr ⟨h, Or.inl h2⟩)
    · rcases le_total a.x0 b.x0 with h3 | h3
      · exact Or.inl (Or.inr ⟨h, Or.inr ⟨h2, h3⟩⟩)
      · exact Or.inr (Or.inr ⟨h.symm, Or.inr ⟨h2.symm, h3⟩⟩)
    · exact Or.inr (Or.inr ⟨h.symm, Or.inl h2⟩)
  · exact Or.inr (Or.inl h)

/-- C4: for every candidate list, the hierarchy-enforcement pass (whose
instrumented variant tags each final entry with its source candidate's `y0`)
yields an outline that is non-decreasing in `(page, y0)`, has no duplicate
`(text, page, level)` triple, and has no orphan sub-level: every H3 entry is
preceded by an H2 entry and every H2 entry by an H1 entry. -/
theorem hierarchy_pass_wellformed (cands : List HCand) :
    (hierarchyPassC cands).map Prod.fst = hierarchyPass cands ∧
    (hierarchyPassC cands).Pairwise
      (fun a b => a.1.page < b.1.page ∨ (a.1.page = b.1.page ∧ a.2 ≤ b.2)) ∧
    ((hierarchyPass cands).map keyOf).Nodup ∧
    (∀ pre e suf, hierarchyPass cands = pre ++ e :: suf →
      (e.level = .H3 → ∃ e' ∈ pre, e'.level = .H2) ∧
      (e.level = .H2 → ∃ e' ∈ pre, e'.level = .H1)) := by
  refine ⟨?_, ?_, ?_, ?_⟩
  · unfold hierarchyPassC hierarchyPass
    rw [dedupAuxC_fst, List.map_reverse,
      (foldl_enfStepC_rel (cands.mergeSort candLE) enfInitC enfInit
        ⟨rfl, rfl, rfl, rfl⟩).1]
  · obtain ⟨tail, heq, hsub⟩ := foldl_rev_extend (cands.mergeSort candLE) enfInitC
    have hsorted : ((cands.mergeSort candLE).map (fun c => (c.page, c.y0))).Pairwise
        (fun u v : ℕ × ℚ => u.1 < v.1 ∨ (u.1 = v.1 ∧ u.2 ≤ v.2)) := by
      refine List.pairwise_map.mpr ?_
      refine (List.sorted_mergeSort candLE_trans candLE_total cands).imp ?_
      intro a b hab
      simp only [candLE, decide_eq_true_eq] at hab
      rcases hab with h | ⟨hp, h⟩
      · exact Or.inl h
      · refine Or.inr ⟨hp, ?_⟩
        rcases h with h | ⟨hy, _⟩
        · exact le_of_lt h
        · exact le_of_eq hy
    have htail : (tail.reverse.map (fun p => (p.1.page, p.2))).Pairwise
        (fun u v : ℕ × ℚ => u.1 < v.1 ∨ (u.1 = v.1 ∧ u.2 ≤ v.2)) :=
      hsorted.sublist hsub
    have hout : (hierarchyPassC cands).Sublist tail.reverse := by
      unfold hierarchyPassC
      rw [heq]
      simpa using dedupAuxC_sublist (tail ++ enfInitC.rev).reverse []
    have := htail.sublist (hout.map (fun p => (p.1.page, p.2)))
    refine (List.pairwise_map.mp this).imp ?_
    intro a b hab
    exact hab
  · unfold hierarchyPass
    exact (dedupAux_key_nodup _ []).1
  · intro pre e suf hsplit
    have hinv := foldl_enfStep_inv (cands.mergeSort candLE) enfInit
      ⟨trivial, fun hne => absurd rfl hne, fun hne => absurd rfl hne⟩
    have hdedup : Hier false false (hierarchyPass cands) := by
      unfold hierarchyPass
      exact Hier_dedup _ [] false false hinv.1 (by simp)
    rw [hsplit] at hdedup
    have hs := Hier_split pre false false e suf hdedup
    constructor
    · intro he
      rcases hs.2 he with hfalse | hex
      · exact absurd hfalse (by simp)
      · exact hex
    · intro he
      rcases hs.1 he with hfalse | hex
      · exact absurd hfalse (by simp)
      · exact hex

/-- First candidate for the C4 witness. -/
def c4CandA : HCand := ⟨.H1, "Intro".toList, 0, 50, 10⟩

/-- Second candidate for the C4 witness, below the first on the same page. -/
def c4CandB : HCand := ⟨.H2, "Details".toList, 0, 80, 10⟩

/-- First outline entry the pass produces for the C4 witness. -/
def c4E1 : OEntry := ⟨.H1, "Intro".toList, 0⟩

/-- Second outline entry the pass produces for the C4 witness. -/
def c4E2 : OEntry := ⟨.H2, "Details".toList, 0⟩

/-- Witness for C4 at a concrete candidate list: the H2 entry in the output
is preceded by an H1 entry. -/
theorem hierarchy_pass_wellformed_witness :
    hierarchyPass [c4CandA, c4CandB] = [c4E1] ++ c4E2 :: [] ∧
    (c4E2.level = .H2 → ∃ e' ∈ [c4E1], e'.level = .H1) := by
  have heval : hierarchyPass [c4CandA, c4CandB] = [c4E1] ++ c4E2 :: [] := by
    unfold hierarchyPass
    rw [List.mergeSort_of_sorted (by decide)]
    decide
  exact ⟨heval,
    ((hierarchy_pass_wellformed [c4CandA, c4CandB]).2.2.2 [c4E1] c4E2 [] heval).2⟩

theorem dropWhile_head_false (p : Char → Bool) :
    ∀ (s : Str) (c : Char), (s.dropWhile p).head? = some c → p c = false := by
  intro s
  induction s with
  | nil => intro c h; simp [List.dropWhile] at h
  | cons x rest ih =>
    intro c h
    rw [List.dropWhile_cons] at h
    split_ifs at h with hx
    · exact ih c h
    · simp only [List.head?_cons, Option.some_inj] at h
      subst h
      exact Bool.not_eq_true _ |>.mp hx

theorem dropWhile_eq_self_of_head (p : Char → Bool) (s : Str)
    (h : ∀ c, s.head? = some c → p c = false) : s.dropWhile p = s := by
  cases s with
  | nil => rfl
  | cons x rest =>
    rw [List.dropWhile_cons, if_neg]
    simp [h x rfl]

theorem pyStrip_head_false (s : Str) (c : Char) (h : (pyStrip s).head? = some c) :
    c.isWhitespace = false := by
  unfold pyStrip at h
  rw [List.head?_reverse] at h
  obtain ⟨t, ht⟩ := List.dropWhile_suffix
    (l := (s.dropWhile Char.isWhitespace).reverse) (p := Char.isWhitespace)
  have hw : ((s.dropWhile Char.isWhitespace).reverse).getLast? = some c := by
    rw [← ht, List.getLast?_append, h]
    rfl
  rw [List.getLast?_reverse] at hw
  exact dropWhile_head_false _ _ _ hw

theorem pyStrip_getLast_false (s : Str) (c : Char) (h : (pyStrip s).getLast? = some c) :
    c.isWhitespace = false := by
  unfold pyStrip at h
  rw [List.getLast?_reverse] at h
  exact dropWhile_head_false _ _ _ h

theorem pyStrip_eq_self (s : Str)
    (h1 : ∀ c, s.head? = some c → c.isWhitespace = false)
    (h2 : ∀ c, s.getLast? = some c → c.isWhitespace = false) : pyStrip s = s := by
  unfold pyStrip
  rw [dropWhile_eq_self_of_head _ _ h1]
  rw [dropWhile_eq_self_of_head _ _ (by intro c hc; rw [List.head?_reverse] at hc; exact h2 c hc)]
  exact List.reverse_reverse s

theorem pyStrip_idem (s : Str) : pyStrip (pyStrip s) = pyStrip s :=
  pyStrip_eq_self _ (pyStrip_head_false s) (pyStrip_getLast_false s)

theorem mem_pyStrip (s : Str) (c : Char) (h : c ∈ pyStrip s) : c ∈ s := by
  unfold pyStrip at h
  rw [List.mem_reverse] at h
  have h2 := (List.dropWhile_sublist (l := (s.dropWhile Char.isWhitespace).reverse)
    (p := Char.isWhitespace)).mem h
  rw [List.mem_reverse] at h2
  exact (List.dropWhile_sublist _).mem h2

theorem joinNL_head (p : Str) (rest : List Str) (hp : p ≠ []) :
    (joinNL (p :: rest)).head? = p.head? := by
  cases rest with
  | nil => rfl
  | cons q qs =>
    show (p ++ '\n' :: joinNL (q :: qs)).head? = p.head?
    cases p with
    | nil => exact absurd rfl hp
    | cons a as => rfl

theorem joinNL_ne_nil (p : Str) (rest : List Str) (hp : p ≠ []) :
    joinNL (p :: rest) ≠ [] := by
  intro h
  have hh := joinNL_head p rest hp
  rw [h] at hh
  cases p with
  | nil => exact hp rfl
  | cons a as => simp at hh

theorem joinNL_getLast_false : ∀ (pieces : List Str),
    (∀ p ∈ pieces, p ≠ []) →
    (∀ p ∈ pieces, ∀ c, p.getLast? = some c → c.isWhitespace = false) →
    ∀ c, (joinNL pieces).getLast? = some c → c.isWhitespace = false
  | [], _, _ => by
    intro c h
    simp [joinNL] at h
  | [p], _, hlast => by
    intro c h
    exact hlast p (by simp) c h
  | p :: q :: rest, hne, hlast => by
    intro c h
    rw [show joinNL (p :: q :: rest) = p ++ '\n' :: joinNL (q :: rest) from rfl] at h
    rw [List.getLast?_append] at h
    have hq : joinNL (q :: rest) ≠ [] := joinNL_ne_nil q rest (hne q (by simp))
    rw [show ('\n' :: joinNL (q :: rest)).getLast? = (joinNL (q :: rest)).getLast? by
        cases hj : joinNL (q :: rest) with
        | nil => exact absurd hj hq
        | cons a as => simp] at h
    cases hj2 : (joinNL (q :: rest)).getLast? with
    | none =>
      exact absurd (List.getLast?_eq_none_iff.mp hj2) hq
    | some d =>
      rw [hj2] at h
      have hdc : d = c := by
        have : Option.some d = some c := h
        exact Option.some_inj.mp this
      subst hdc
      exact joinNL_getLast_false (q :: rest) (fun x hx => hne x (by simp [hx]))
        (fun x hx => hlast x (by simp [hx])) d hj2

/-- Python `s.split("\n")`: split on each newline, keeping empty segments
(splitting the empty string yields `[""]`). -/
def pyLines : Str → List Str
  | [] => [[]]
  | c :: rest =>
    if c = '\n' then [] :: pyLines rest
    else
      match pyLines rest with
      | [] => [[c]]
      | l :: ls => (c :: l) :: ls

theorem pyLines_of_no_newline : ∀ (s : Str), '\n' ∉ s → pyLines s = [s]
  | [], _ => rfl
  | c :: rest, h => by
    rw [pyLines]
    rw [if_neg (by intro hc; exact h (by simp [hc]))]
    rw [pyLines_of_no_newline rest (fun hm => h (List.mem_cons_of_mem _ hm))]

theorem pyLines_append_newline : ∀ (xs ys : Str), '\n' ∉ xs →
    pyLines (xs ++ '\n' :: ys) = xs :: pyLines ys
  | [], ys, _ => by
    rw [List.nil_append, pyLines, if_pos rfl]
  | x :: xs, ys, h => by
    rw [List.cons_append, pyLines,
      if_neg (by intro hc; exact h (by simp [hc])),
      pyLines_append_newline xs ys (fun hm => h (List.mem_cons_of_mem _ hm))]

theorem pyLines_joinNL : ∀ (pieces : List Str), pieces ≠ [] →
    (∀ p ∈ pieces, '\n' ∉ p) → pyLines (joinNL pieces) = pieces
  | [], h, _ => absurd rfl h
  | [p], _, hnl => by
    rw [show joinNL [p] = p from rfl]
    exact pyLines_of_no_newline p (hnl p (by simp))
  | p :: q :: rest, _, hnl => by
    rw [show joinNL (p :: q :: rest) = p ++ '\n' :: joinNL (q :: rest) from rfl]
    rw [pyLines_append_newline p _ (hnl p (by simp))]
    rw [pyLines_joinNL (q :: rest) (by simp) (fun x hx => hnl x (by simp [hx]))]

/-- Drop a leading `\s*`. -/
def dropWS (s : Str) : Str := s.dropWhile Char.isWhitespace

/-- Consume a leading `\s+` (at least one whitespace character). -/
def dropWS1 : Str → Option Str
  | c :: rest => if c.isWhitespace then some (dropWS rest) else none
  | [] => none

/-- Consume a leading `\d+` (at least one digit). -/
def dropDigits1 : Str → Option Str
  | c :: rest => if c.isDigit then some (rest.dropWhile Char.isDigit) else none
  | [] => none

/-- Consume a case-insensitive literal. -/
def dropLit (lit s : Str) : Option Str :=
  if pyLower (s.take lit.length) = pyLower lit then some (s.drop lit.length) else none

/-- Consume a leading `-`. -/
def dropDash : Str → Option Str
  | c :: rest => if c = '-' then some rest else none
  | [] => none

/-- The footer pattern `^\s*Page\s+\d+\s+of\s+\d+\s*$` with `re.IGNORECASE`
(document_parser.py:551). -/
def isPageXofY (s : Str) : Bool :=
  match (do
    let s1 ← dropLit "page".toList (dropWS s)
    let s2 ← dropWS1 s1
    let s3 ← dropDigits1 s2
    let s4 ← dropWS1 s3
    let s5 ← dropLit "of".toList s4
    let s6 ← dropWS1 s5
    let s7 ← dropDigits1 s6
    pure s7 : Option Str) with
  | some s' => (dropWS s').isEmpty
  | none => false

/-- The bare-integer pattern `^\s*\d+\s*$` (document_parser.py:552, applied to
the stripped text). -/
def isBareInt (s : Str) : Bool :=
  match dropDigits1 (dropWS s) with
  | some s' => (dropWS s').isEmpty
  | none => false

/-- Characters of the class `[A-Za-z\s]`. -/
def isAlphaWS (c : Char) : Bool := c.isAlpha || c.isWhitespace

/-- The running-header pattern `^\s*[A-Za-z\s]+\s+\|\s+[A-Za-z\s]+\s*$`
(document_parser.py:553): exactly one `|`, a letters/whitespace part of at
least two characters ending in whitespace before it, and one of at least two
characters starting with whitespace after it. -/
def isLeftRight (s : Str) : Bool :=
  let p := s.takeWhile (fun c => decide (c ≠ '|'))
  match s.drop p.length with
  | '|' :: q =>
    p.all isAlphaWS && decide (2 ≤ p.length) &&
      (match p.getLast? with
        | some c => c.isWhitespace
        | none => false) &&
      q.all isAlphaWS && decide (2 ≤ q.length) &&
      (match q.head? with
        | some c => c.isWhitespace
        | none => false)
  | _ => false

/-- The dash-number pattern `^\s*-\s*\d+\s*-\s*$` (document_parser.py:554). -/
def isDashNum (s : Str) : Bool :=
  match (do
    let s1 ← dropDash (dropWS s)
    let s2 ← dropDigits1 (dropWS s1)
    let s3 ← dropDash (dropWS s2)
    pure s3 : Option Str) with
  | some s' => (dropWS s').isEmpty
  | none => false

/-- The footer/header rejection of the section materializer
(document_parser.py:551-554): the bare-integer pattern is applied to the
stripped text, the others to the raw text. -/
def isFooterHeader (t : Str) : Bool :=
  isPageXofY t || isBareInt (pyStrip t) || isLeftRight t || isDashNum t

/-- A section marker (document_parser.py:454-497). -/
structure SMarker where
  text : Str
  page : ℕ
  y0 : ℚ
  level : SLevel
  deriving DecidableEq

/-- The title-marker span search (document_parser.py:448-463): the first span
in reading order that equals the title exactly, or that contains a long
(> 20 characters) title while bold and at least 18pt. -/
def titleMarkerSpan (title : Str) (pagesData : List (List Span)) : Option Span :=
  pagesData.flatten.find? (fun span =>
    decide (pyStrip span.text = title) ||
    (decide (20 < title.length) && decide (List.IsInfix title (pyStrip span.text)) &&
      span.is_bold && decide ((18:ℚ) ≤ span.font_size)))

/-- The title markers (document_parser.py:447-467): one `H0` marker at the
matched span (fallback page 0 / y0 0), none when the title is empty. -/
def titleMarkers (title : Str) (pagesData : List (List Span)) : List SMarker :=
  if title ≠ [] then
    match titleMarkerSpan title pagesData with
    | some span => [⟨title, span.page, span.y0, .H0⟩]
    | none => [⟨title, 0, 0, .H0⟩]
  else []

/-- The anchor `y0` of one outline entry (document_parser.py:470-497): the
first span on the entry's page with exactly the entry's stripped text that is
bold or at least 12pt; fallback `y0 = 0`. -/
def outlineMarkerY0 (pagesData : List (List Span)) (item : OEntry) : ℚ :=
  match pagesData.flatten.find? (fun span =>
    decide (span.page = item.page) && decide (pyStrip span.text = pyStrip item.text) &&
    (span.is_bold || decide ((12:ℚ) ≤ span.font_size))) with
  | some span => span.y0
  | none => 0

/-- All section markers before sorting (document_parser.py:446-497). -/
def sectionMarkers (title : Str) (outline : List OEntry)
    (pagesData : List (List Span)) : List SMarker :=
  titleMarkers title pagesData ++
    outline.map (fun item =>
      ⟨item.text, item.page, outlineMarkerY0 pagesData item, SLevel.HL item.level⟩)

/-- The marker sort key `(page, y0)` (document_parser.py:499). -/
def markerLE (a b : SMarker) : Bool :=
  decide (a.page < b.page ∨ (a.page = b.page ∧ a.y0 ≤ b.y0))

/-- Marker de-duplication by text, first occurrence wins
(document_parser.py:501-507). -/
def dedupMarkers (seen : List Str) : List SMarker → List SMarker
  | [] => []
  | m :: rest =>
    if m.text ∈ seen then dedupMarkers seen rest
    else m :: dedupMarkers (m.text :: seen) rest

/-- The content window of a marker (document_parser.py:511-527): the end page
and the exclusive end `y0` (`none` embeds `float('inf')`); `pageY1` gives each
page's bottom coordinate (`page.rect.y1`). -/
def contentWindow (pagesData : List (List Span)) (pageY1 : ℕ → ℚ) (cur : SMarker)
    (nxt? : Option SMarker) : ℕ × Option ℚ :=
  match nxt? with
  | none => (pagesData.length - 1, none)
  | some nxt =>
    if nxt.page = cur.page then (cur.page, some nxt.y0)
    else (cur.page, some (pageY1 cur.page))

/-- The span-inclusion test of the content loop (document_parser.py:538-558):
inside the window, not equal (stripped) to the current marker's or any
outline heading's text, not a footer/header, and not a short fragment. -/
def IncludeSpan (outline : List OEntry) (cur : SMarker) (endPage : ℕ)
    (endY : Option ℚ) (pageIdx : ℕ) (t : Span) : Prop :=
  cur.y0 ≤ t.y0 ∧
  (pageIdx < endPage ∨ (pageIdx = endPage ∧ (match endY with
    | none => True
    | some e => t.y0 < e))) ∧
  (pyStrip t.text ≠ pyStrip cur.text ∧ ∀ hm ∈ outline, pyStrip t.text ≠ pyStrip hm.text) ∧
  isFooterHeader t.text = false ∧
  (1 < (pyWords (pyStrip t.text)).length ∨ 5 < (pyStrip t.text).length)

instance (outline : List OEntry) (cur : SMarker) (endPage : ℕ) (endY : Option ℚ)
    (pageIdx : ℕ) (t : Span) : Decidable (IncludeSpan outline cur endPage endY pageIdx t) := by
  unfold IncludeSpan
  cases endY <;> infer_instance

/-- The page range `range(start_page, end_page + 1)` with the bounds check
`page_num_iter >= len(pages_data): continue` (document_parser.py:532-536). -/
def pagesInRange (pagesData : List (List Span)) (startPage endPage : ℕ) :
    List (ℕ × List Span) :=
  ((List.range' startPage (endPage + 1 - startPage)).filter
    (fun p => decide (p < pagesData.length))).map
    (fun p => (p, pagesData.getD p []))

/-- The stripped texts of the spans included in one marker's window, in page
then span order (document_parser.py:529-562). -/
def contentPieces (pagesData : List (List Span)) (pageY1 : ℕ → ℚ)
    (outline : List OEntry) (cur : SMarker) (nxt? : Option SMarker) : List Str :=
  (pagesInRange pagesData cur.page (contentWindow pagesData pageY1 cur nxt?).1).flatMap
    (fun pp => (pp.2.filter (fun t => decide (IncludeSpan outline cur
        (contentWindow pagesData pageY1 cur nxt?).1
        (contentWindow pagesData pageY1 cur nxt?).2 pp.1 t))).map
      (fun t => pyStrip t.text))

/-- The body text of one marker's section (document_parser.py:529-564): the
included span texts joined with newlines, stripped. -/
def sectionContent (pagesData : List (List Span)) (pageY1 : ℕ → ℚ)
    (outline : List OEntry) (cur : SMarker) (nxt? : Option SMarker) : Str :=
  pyStrip (joinNL (contentPieces pagesData pageY1 outline cur nxt?))

/-- The section-emission loop (document_parser.py:510, 566-573): one Section
per marker, kept when it is the title section (H0) or its content has at
least 10 words. -/
def markerSections (pagesData : List (List Span)) (pageY1 : ℕ → ℚ)
    (outline : List OEntry) (fname : Str) : List SMarker → List Section
  | [] => []
  | m :: rest =>
    if m.level = .H0 ∨
        10 ≤ (pyWords (sectionContent pagesData pageY1 outline m rest.head?)).length then
      ⟨fname, m.text, m.page + 1, sectionContent pagesData pageY1 outline m rest.head?,
        m.level⟩ :: markerSections pagesData pageY1 outline fname rest
    else markerSections pagesData pageY1 outline fname rest

/-- The section materializer of `extract_structured_sections`
(document_parser.py:442-573): markers from title and outline, sorted by
`(page, y0)` (Python's stable sort), de-duplicated by text, then sliced into
content windows. -/
def extractSections (pagesData : List (List Span)) (pageY1 : ℕ → ℚ) (title : Str)
    (outline : List OEntry) (fname : Str) : List Section :=
  markerSections pagesData pageY1 outline fname
    (dedupMarkers [] ((sectionMarkers title outline pagesData).mergeSort markerLE))

theorem getD_mem_of_lt (l : List (List Span)) : ∀ (n : ℕ), n < l.length →
    l.getD n [] ∈ l := by
  induction l with
  | nil => intro n h; simp at h
  | cons x xs ih =>
    intro n h
    cases n with
    | zero => simp
    | succ m =>
      simp only [List.getD_cons_succ]
      exact List.mem_cons_of_mem _ (ih m (by simpa using h))

theorem markerSections_content (pagesData : List (List Span)) (pageY1 : ℕ → ℚ)
    (outline : List OEntry) (fname : Str) : ∀ (markers : List SMarker),
    ∀ sec ∈ markerSections pagesData pageY1 outline fname markers,
      ∃ m nxt?, sec.text_content = sectionContent pagesData pageY1 outline m nxt? := by
  intro markers
  induction markers with
  | nil => intro sec hsec; simp [markerSections] at hsec
  | cons m rest ih =>
    intro sec hsec
    rw [markerSections] at hsec
    split_ifs at hsec with hkeep
    · rcases List.mem_cons.mp hsec with hhd | htl
      · subst hhd
        exact ⟨m, rest.head?, rfl⟩
      · exact ih sec htl
    · exact ih sec hsec

theorem sectionContent_lines (pagesData : List (List Span)) (pageY1 : ℕ → ℚ)
    (outline : List OEntry) (cur : SMarker) (nxt? : Option SMarker)
    (hNL : ∀ page ∈ pagesData, ∀ s ∈ page, '\n' ∉ s.text)
    (hT : ∀ e ∈ outline, e.text ≠ []) :
    ∀ line ∈ pyLines (sectionContent pagesData pageY1 outline cur nxt?),
      ∀ e ∈ outline, line ≠ e.text := by
  intro line hline e he
  unfold sectionContent at hline
  set pieces := contentPieces pagesData pageY1 outline cur nxt? with hpieces
  have hspec : ∀ p ∈ pieces, ∃ t : Span, p = pyStrip t.text ∧ '\n' ∉ t.text ∧
      (∀ hm ∈ outline, pyStrip t.text ≠ pyStrip hm.text) ∧
      (1 < (pyWords (pyStrip t.text)).length ∨ 5 < (pyStrip t.text).length) := by
    intro p hp
    rw [hpieces] at hp
    unfold contentPieces at hp
    rw [List.mem_flatMap] at hp
    obtain ⟨pp, hpp, hm⟩ := hp
    rw [List.mem_map] at hm
    obtain ⟨t, ht, rfl⟩ := hm
    rw [List.mem_filter] at ht
    obtain ⟨htmem, hinc⟩ := ht
    rw [decide_eq_true_eq] at hinc
    refine ⟨t, rfl, ?_, hinc.2.2.1.2, hinc.2.2.2.2⟩
    unfold pagesInRange at hpp
    rw [List.mem_map] at hpp
    obtain ⟨pidx, hpidx, rfl⟩ := hpp
    rw [List.mem_filter, decide_eq_true_eq] at hpidx
    exact hNL _ (getD_mem_of_lt pagesData pidx hpidx.2) t htmem
  by_cases hpe : pieces = []
  · rw [hpe] at hline
    have hempty : pyStrip (joinNL ([] : List Str)) = [] := rfl
    rw [hempty] at hline
    have hl : line = [] := by
      have : pyLines ([] : Str) = [[]] := rfl
      rw [this] at hline
      simpa using hline
    intro heq
    exact hT e he (by rw [← heq, hl])
  · have hne : ∀ p ∈ pieces, p ≠ [] := by
      intro p hp hnil
      obtain ⟨t, hpt, _, _, hfrag⟩ := hspec p hp
      rw [← hpt, hnil] at hfrag
      rcases hfrag with h1 | h1
      · exact absurd h1 (by decide)
      · exact absurd h1 (by decide)
    have hnl' : ∀ p ∈ pieces, '\n' ∉ p := by
      intro p hp hc
      obtain ⟨t, hpt, hnlt, _, _⟩ := hspec p hp
      rw [hpt] at hc
      exact hnlt (mem_pyStrip _ _ hc)
    have hcontent : pyStrip (joinNL pieces) = joinNL pieces := by
      refine pyStrip_eq_self _ ?_ ?_
      · intro c hc
        cases hps : pieces with
        | nil => exact absurd hps hpe
        | cons p0 ps =>
          rw [hps] at hc
          rw [joinNL_head p0 ps (hne p0 (by rw [hps]; simp))] at hc
          obtain ⟨t, hpt, _, _, _⟩ := hspec p0 (by rw [hps]; simp)
          rw [hpt] at hc
          exact pyStrip_head_false _ _ hc
      · intro c hc
        refine joinNL_getLast_false pieces hne ?_ c hc
        intro p hp d hd
        obtain ⟨t, hpt, _, _, _⟩ := hspec p hp
        rw [hpt] at hd
        exact pyStrip_getLast_false _ _ hd
    rw [hcontent, pyLines_joinNL pieces hpe hnl'] at hline
    obtain ⟨t, hpt, _, hno, _⟩ := hspec line hline
    intro heq
    refine hno e he ?_
    calc pyStrip t.text = pyStrip (pyStrip t.text) := (pyStrip_idem _).symm
      _ = pyStrip line := by rw [← hpt]
      _ = pyStrip e.text := by rw [heq]

/-- C9: for every Section kept by the section materializer, no line of its
`text_content` equals any outline entry's heading text — under the extractor
well-formedness assumptions that span texts contain no newline and outline
heading texts are non-empty. -/
theorem sections_no_heading_line (pagesData : List (List Span)) (pageY1 : ℕ → ℚ)
    (title : Str) (outline : List OEntry) (fname : Str)
    (hNL : ∀ page ∈ pagesData, ∀ s ∈ page, '\n' ∉ s.text)
    (hT : ∀ e ∈ outline, e.text ≠ []) :
    ∀ sec ∈ extractSections pagesData pageY1 title outline fname,
      ∀ line ∈ pyLines sec.text_content, ∀ e ∈ outline, line ≠ e.text := by
  intro sec hsec line hline e he
  obtain ⟨m, nxt?, hcontent⟩ := markerSections_content pagesData pageY1 outline fname
    (dedupMarkers [] ((sectionMarkers title outline pagesData).mergeSort markerLE)) sec hsec
  rw [hcontent] at hline
  exact sectionContent_lines pagesData pageY1 outline m nxt? hNL hT line hline e he

/-- The heading span of the C9 witness page. -/
def c9Heading : Span := ⟨"Heading One".toList, 16, true, 0, 50, 100, 200, 110, 10⟩

/-- The body span of the C9 witness page (ten words). -/
def c9Body : Span :=
  ⟨"one two three four five six seven eight nine ten".toList, 11, false, 0, 50, 150, 400, 160, 10⟩

/-- The C9 witness page list. -/
def c9Pages : List (List Span) := [[c9Heading, c9Body]]

/-- The C9 witness outline. -/
def c9Outline : List OEntry := [⟨.H1, "Heading One".toList, 0⟩]

/-- Witness for C9 at a concrete document: the hypotheses hold and the
conclusion is the theorem's instance. -/
theorem sections_no_heading_line_witness :
    (∀ page ∈ c9Pages, ∀ s ∈ page, '\n' ∉ s.text) ∧
    (∀ e ∈ c9Outline, e.text ≠ []) ∧
    (∀ sec ∈ extractSections c9Pages (fun _ => 800) [] c9Outline "doc.pdf".toList,
      ∀ line ∈ pyLines sec.text_content, ∀ e ∈ c9Outline, line ≠ e.text) :=
  ⟨by decide, by decide,
    sections_no_heading_line c9Pages (fun _ => 800) [] c9Outline "doc.pdf".toList
      (by decide) (by decide)⟩

/-- The possible outcomes of opening and extracting one document
(document_parser.py:438-588): a readable document (its spans and page-bottom
table, plus the title/outline that `identify_headings` computes from them,
carried as data since only the fault paths matter to the error-handling
claims), a `fitz.FileNotFoundError`, or any other fault raised while
processing. -/
inductive ExtractOutcome
  | readable (pagesData : List (List Span)) (pageY1 : ℕ → ℚ) (title : Str)
      (outline : List OEntry)
  | fileNotFound
  | otherError

/-- The error handling of `DocumentParser.extract_structured_sections`
(document_parser.py:583-588): `fitz.FileNotFoundError` is caught, logged, and
turned into an empty result; every other exception is logged and RE-RAISED
(the bare `raise` on line 588), modelled as `Except.error`. -/
def extractStructuredSectionsE (fname : Str) : ExtractOutcome → Except Unit (List Section)
  | .readable pagesData pageY1 title outline =>
      .ok (extractSections pagesData pageY1 title outline fname)
  | .fileNotFound => .ok []
  | .otherError => .error ()

/-- Phase 1 of `run_solution` (main.py:145-157): each document is processed in
turn and its sections are appended; an uncaught exception from
`extract_structured_sections` propagates and aborts the remaining documents. -/
def collectSections : List (Str × ExtractOutcome) → Except Unit (List Section)
  | [] => .ok []
  | (fname, d) :: rest => do
    let s ← extractStructuredSectionsE fname d
    let acc ← collectSections rest
    pure (s ++ acc)

/-- A batch document that raises an unexpected (non-file-not-found) fault. -/
def c1BadDoc : Str × ExtractOutcome := ("bad.pdf".toList, .otherError)

/-- A perfectly readable (empty) sibling document. -/
def c1GoodDoc : Str × ExtractOutcome :=
  ("good.pdf".toList, .readable [] (fun _ => 0) [] [])

/-- C1 counterexample: an unexpected extraction fault in one document is NOT
isolated — the whole batch fails and the readable sibling document is never
processed, although that sibling alone yields a normal (empty) result. -/
theorem unexpected_error_aborts_batch_cex :
    collectSections [c1BadDoc, c1GoodDoc] = .error () ∧
    collectSections [c1GoodDoc] = .ok [] := by
  constructor
  · rfl
  · show (do
      let s ← extractStructuredSectionsE c1GoodDoc.1 c1GoodDoc.2
      let acc ← collectSections []
      pure (s ++ acc) : Except Unit (List Section)) = .ok []
    have hgood : extractStructuredSectionsE c1GoodDoc.1 c1GoodDoc.2 = .ok [] := by
      show Except.ok (extractSections [] (fun _ => 0) [] [] ("good.pdf".toList)) = .ok []
      unfold extractSections sectionMarkers titleMarkers
      norm_num
      rfl
    rw [hgood]
    rfl

/-- C1 (amended): only the 'document unreadable' fault
(`fitz.FileNotFoundError`) is caught per document — that document contributes
zero sections and processing continues with the remaining documents; any
other fault propagates uncaught and aborts the whole batch. -/
theorem batch_error_isolation (n : Str) (rest : List (Str × ExtractOutcome)) :
    collectSections ((n, .fileNotFound) :: rest) = collectSections rest ∧
    collectSections ((n, .otherError) :: rest) = .error () := by
  constructor
  · show (do
      let s ← extractStructuredSectionsE n .fileNotFound
      let acc ← collectSections rest
      pure (s ++ acc) : Except Unit (List Section)) = collectSections rest
    cases h : collectSections rest with
    | error e => rfl
    | ok l =>
      show Except.ok (([] : List Section) ++ l) = Except.ok l
      rw [List.nil_append]
  · rfl

end DocPipe
